import Mathlib

/-!
# Verification of the lockbox storage engine specification

Shallow embedding, in Lean 4, of the core of the `lockbox` repository:
the key-derivation and hybrid block-cipher layer (`pkg/crypto/crypto.go`),
the encrypted columnar file format (`pkg/format/format.go`), the metadata
model (`pkg/metadata/metadata.go`) and the restricted SQL query operator
(`lockbox.go`).

Modelling conventions:

* Bytes are modelled as `Nat` (a byte list is `List Nat`); machine byte
  range is not enforced by the type, and the model's cipher and codecs are
  chosen to be invertible on all of `Nat`, so no information is lost where
  the Go code loses none.
* Go `int64` offsets, lengths and row counts are modelled as `Nat`;
  negative values are out of scope of the claims.
* External primitives consumed by the repository (SHA-256, PBKDF2,
  AES-256-GCM, the edwards25519 group of `go.dedis.ch/kyber`, Arrow IPC
  serialization, JSON metadata serialization) are modelled by executable
  stand-ins with the same interface shape: digests are 32 bytes, the AEAD
  seal adds a 16-byte tag and verifies it on open, the group is the
  prime-order scalar group written in exponent coordinates with a 32-byte
  injective point encoding, and the serializers are injective codecs with
  executable inverses.  Collision-freedom of SHA-256 is never assumed
  globally; where a claim needs it, it appears as an explicit hypothesis
  discharged on the concrete witness input.
* Randomness (salts, ephemeral scalars, nonces) is passed explicitly as
  arguments or streams.
* Goroutine worker pools compute per-column results that are joined before
  anything is observed; the model computes the same per-column results in
  column order, which is the observable semantics of the Go code
  (first error by column order, all-or-nothing join).
-/

/-! ## Byte-level utilities -/

/-- Little-endian encoding of `n` into exactly `w` bytes (truncating above `256^w`). -/
def toLE : Nat → Nat → List Nat
  | 0, _ => []
  | w + 1, n => (n % 256) :: toLE w (n / 256)

/-- Little-endian decoding of a byte list. -/
def fromLE : List Nat → Nat
  | [] => 0
  | b :: bs => b + 256 * fromLE bs

theorem toLE_length (w n : Nat) : (toLE w n).length = w := by
  induction w generalizing n with
  | zero => rfl
  | succ w ih => simp [toLE, ih]

theorem fromLE_toLE (w n : Nat) : fromLE (toLE w n) = n % 256 ^ w := by
  induction w generalizing n with
  | zero => simp [toLE, fromLE, Nat.mod_one]
  | succ w ih =>
      have h256 : (256 : Nat) ^ (w + 1) = 256 * 256 ^ w := by
        rw [pow_succ]; ring
      simp [toLE, fromLE, ih, h256, Nat.mod_mul]

/-- Positional read of `len` bytes at `off`; fails beyond end of file
(model of `os.File.ReadAt`). -/
def readAt (f : List Nat) (off len : Nat) : Option (List Nat) :=
  if off + len ≤ f.length then some ((f.drop off).take len) else none

/-- Overwrite the bytes of `f` starting at `off` with `w`
(model of a positional write inside an existing file region). -/
def writeAt (f : List Nat) (off : Nat) (w : List Nat) : List Nat :=
  f.take off ++ w ++ f.drop (off + w.length)

theorem writeAt_length (f : List Nat) (off : Nat) (w : List Nat)
    (h : off + w.length ≤ f.length) : (writeAt f off w).length = f.length := by
  simp only [writeAt, List.length_append, List.length_take, List.length_drop]
  omega

theorem readAt_length {f : List Nat} {off len : Nat} {r : List Nat}
    (h : readAt f off len = some r) : r.length = len := by
  unfold readAt at h
  split at h
  · cases h
    simp only [List.length_take, List.length_drop]
    omega
  · cases h

theorem readAt_append_left (f g : List Nat) (off len : Nat)
    (h : off + len ≤ f.length) : readAt (f ++ g) off len = readAt f off len := by
  unfold readAt
  rw [List.drop_append_of_le_length (by omega)]
  have h2 : off + len ≤ (f ++ g).length := by simp; omega
  rw [if_pos h2, if_pos h]
  congr 1
  rw [List.take_append_of_le_length (by simp; omega)]

theorem readAt_append_right (f g : List Nat) :
    readAt (f ++ g) f.length g.length = some g := by
  unfold readAt
  rw [if_pos (by simp)]
  rw [List.drop_append_of_le_length (le_refl _), List.drop_length, List.nil_append,
    List.take_of_length_le (le_refl _)]

/-- A positional overwrite leaves every read of a disjoint region unchanged. -/
theorem readAt_writeAt_disjoint (f : List Nat) (o : Nat) (w : List Nat) (off len : Nat)
    (hw : o + w.length ≤ f.length)
    (hdisj : off + len ≤ o ∨ o + w.length ≤ off) :
    readAt (writeAt f o w) off len = readAt f off len := by
  have hlen : (writeAt f o w).length = f.length := writeAt_length f o w hw
  unfold readAt
  rw [hlen]
  by_cases hin : off + len ≤ f.length
  · rw [if_pos hin, if_pos hin]
    congr 1
    show List.take len (List.drop off ((f.take o ++ w) ++ f.drop (o + w.length)))
      = List.take len (List.drop off f)
    rcases hdisj with hlt | hgt
    · rw [List.drop_append_of_le_length
        (show off ≤ (f.take o ++ w).length by simp; omega)]
      rw [List.drop_append_of_le_length
        (show off ≤ (f.take o).length by simp; omega)]
      rw [List.take_append_of_le_length
        (show len ≤ (List.drop off (f.take o) ++ w).length by simp; omega)]
      rw [List.take_append_of_le_length
        (show len ≤ (List.drop off (f.take o)).length by simp; omega)]
      rw [List.drop_take, List.take_take]
      congr 1
      omega
    · have h1 : List.drop ((f.take o ++ w).length + (off - (o + w.length)))
          ((f.take o ++ w) ++ f.drop (o + w.length))
          = List.drop (off - (o + w.length)) (f.drop (o + w.length)) :=
        List.drop_append _
      rw [List.drop_drop] at h1
      have h2 : (f.take o ++ w).length + (off - (o + w.length)) = off := by
        simp; omega
      have h3 : o + w.length + (off - (o + w.length)) = off := by omega
      rw [h2, h3] at h1
      rw [h1]
  · rw [if_neg hin, if_neg hin]

/-! ## Crypto layer (`pkg/crypto/crypto.go`)

The edwards25519 prime-order group used through `go.dedis.ch/kyber` is
modelled in exponent coordinates: a point `s·G` is represented by the
scalar `s` in `ZMod ℓ` where `ℓ` is the group order, the generator is `1`,
and variable-base scalar multiplication is field multiplication.  The
32-byte point encoding is the little-endian encoding of the representative,
which is injective exactly like the real canonical encoding. -/

/-- Order of the prime-order subgroup of edwards25519. -/
def groupOrder : Nat := 2 ^ 252 + 27742317777372353535851937790883648493

/-- Scalars of the prime-order group. -/
abbrev GroupScalar := ZMod groupOrder

/-- Points of the prime-order group, in exponent coordinates
(`s·G` is represented by `s`). -/
abbrev GroupPoint := ZMod groupOrder

instance : NeZero groupOrder := ⟨by decide⟩

/-- `Suite.Point().Mul(s, nil)`: fixed-base scalar multiplication `s·G`. -/
def mulBase (s : GroupScalar) : GroupPoint := s

/-- `Suite.Point().Mul(s, p)`: variable-base scalar multiplication `s·p`. -/
def pointMul (s : GroupScalar) (p : GroupPoint) : GroupPoint := s * p

/-- `Point.MarshalBinary`: canonical 32-byte encoding of a group point. -/
def encodePoint (p : GroupPoint) : List Nat := toLE 32 p.val

/-- `Point.UnmarshalBinary`: parse a 32-byte canonical point encoding. -/
def decodePoint (bs : List Nat) : Option GroupPoint :=
  if bs.length = 32 ∧ fromLE bs < groupOrder then some (fromLE bs : ZMod groupOrder)
  else none

theorem encodePoint_length (p : GroupPoint) : (encodePoint p).length = 32 :=
  toLE_length 32 p.val

theorem groupOrder_lt : groupOrder < 256 ^ 32 := by decide

theorem decodePoint_encodePoint (p : GroupPoint) :
    decodePoint (encodePoint p) = some p := by
  have hval : p.val < groupOrder := ZMod.val_lt p
  have hmod : p.val % 256 ^ 32 = p.val :=
    Nat.mod_eq_of_lt (lt_trans hval groupOrder_lt)
  unfold decodePoint encodePoint
  rw [fromLE_toLE, hmod, if_pos ⟨toLE_length 32 p.val, hval⟩]
  exact congrArg some (ZMod.natCast_rightInverse p)

/-- Model of the external SHA-256 primitive: an executable 32-byte digest
(an FNV-style fold; the repository consumes only the interface
"arbitrary bytes in, 32-byte digest out"). -/
def sha256 (data : List Nat) : List Nat :=
  let h := data.foldl (fun acc b => (acc * 1099511628211 + b + 1) % 2 ^ 64)
    ((14695981039346656037 + data.length) % 2 ^ 64)
  toLE 32 h

theorem sha256_length (data : List Nat) : (sha256 data).length = 32 :=
  toLE_length 32 _

/-- Model of the external PBKDF2-HMAC-SHA256 primitive: an executable
derivation that is a deterministic function of (password, salt,
iteration count, key length), returning `keyLen` bytes. -/
def pbkdf2Key (password salt : List Nat) (iterations keyLen : Nat) : List Nat :=
  (sha256 (password ++ salt ++ toLE 4 iterations ++ toLE 4 keyLen)).take keyLen

/-- Bytes of a Go string (model: character code points). -/
def strBytes (s : String) : List Nat := s.toList.map Char.toNat

/-- `crypto.KeySize` -/
def KeySize : Nat := 32
/-- `crypto.NonceSize` -/
def NonceSize : Nat := 12
/-- `crypto.SaltSize` -/
def SaltSize : Nat := 32
/-- `crypto.PBKDF2Iterations` -/
def PBKDF2Iterations : Nat := 100000

/-- `crypto.Key`: symmetric key bytes plus salt plus the (nilable)
ephemeral-group keypair. -/
structure Key where
  data : List Nat
  salt : List Nat
  kyberPublicKey : Option GroupPoint
  kyberSecretKey : Option GroupScalar
  deriving DecidableEq, Repr

/-- `crypto.NewKey`: derives the symmetric key by PBKDF2 from the password
and the (randomly drawn) salt, and picks a *fresh random* scalar for the
keypair.  The randomness is passed explicitly: `saltRand` is the 32-byte
salt read from `crypto/rand`, and `scalarRand` is the scalar picked by
`Suite.Scalar().Pick(random.New())`. -/
def NewKey (password : String) (saltRand : List Nat) (scalarRand : GroupScalar) : Key :=
  { data := pbkdf2Key (strBytes password) saltRand PBKDF2Iterations KeySize
    salt := saltRand
    kyberPublicKey := some (mulBase scalarRand)
    kyberSecretKey := some scalarRand }

/-- `Scalar.SetBytes`: interpret bytes as a little-endian integer reduced
mod the group order. -/
def scalarSetBytes (bs : List Nat) : GroupScalar := (fromLE bs : ZMod groupOrder)

/-- `crypto.DeriveKey`: derives the symmetric key by PBKDF2 from password
and the given salt, and derives the scalar deterministically from the key
bytes via `SetBytes`.  Always returns a key (the Go function returns a
fresh non-nil pointer); the `Option` wrapper `DeriveKeyOpt` below models
the pointer's nilability as observed by callers. -/
def DeriveKey (password : String) (salt : List Nat) : Key :=
  let key := pbkdf2Key (strBytes password) salt PBKDF2Iterations KeySize
  { data := key
    salt := salt
    kyberPublicKey := some (mulBase (scalarSetBytes key))
    kyberSecretKey := some (scalarSetBytes key) }

/-- The `*crypto.Key` pointer returned by `DeriveKey`, as an `Option` to
model Go pointer nilability: it is always `some`. -/
def DeriveKeyOpt (password : String) (salt : List Nat) : Option Key :=
  some (DeriveKey password salt)

/-- `crypto.DeriveColumnKey`: `PBKDF2(master ‖ columnName, salt, 100000, 32)`. -/
def DeriveColumnKey (masterKey : List Nat) (columnName : String) (salt : List Nat) : List Nat :=
  pbkdf2Key (masterKey ++ strBytes columnName) salt PBKDF2Iterations KeySize

/-! ### AES-256-GCM model

`gcmSeal key nonce pt` returns ciphertext-plus-tag of length `|pt| + 16`;
`gcmOpen` verifies the tag and inverts.  The byte transformation adds a
key/nonce-derived constant (inverted exactly on open), and the 16-byte tag
is a digest of key, nonce and ciphertext. -/

/-- Key/nonce-derived keystream constant of the modelled stream cipher. -/
def gcmKs (key nonce : List Nat) : Nat := fromLE (sha256 (key ++ nonce))

/-- 16-byte authentication tag over (key, nonce, ciphertext). -/
def gcmTag (key nonce ct : List Nat) : List Nat :=
  (sha256 (key ++ nonce ++ ct)).take 16

/-- `cipher.AEAD.Seal` (no AAD): ciphertext plus 16-byte tag. -/
def gcmSeal (key nonce pt : List Nat) : List Nat :=
  let ct := pt.map (fun b => b + gcmKs key nonce)
  ct ++ gcmTag key nonce ct

/-- `cipher.AEAD.Open` (no AAD): verify tag, then decrypt. -/
def gcmOpen (key nonce c : List Nat) : Option (List Nat) :=
  if 16 ≤ c.length then
    let ct := c.take (c.length - 16)
    let tag := c.drop (c.length - 16)
    if gcmTag key nonce ct = tag then some (ct.map (fun b => b - gcmKs key nonce))
    else none
  else none

theorem gcmSeal_length (key nonce pt : List Nat) :
    (gcmSeal key nonce pt).length = pt.length + 16 := by
  simp [gcmSeal, gcmTag, sha256_length]

theorem gcmOpen_gcmSeal (key nonce pt : List Nat) :
    gcmOpen key nonce (gcmSeal key nonce pt) = some pt := by
  have hct : (pt.map (fun b => b + gcmKs key nonce)).length = pt.length := by simp
  have hlen : (gcmSeal key nonce pt).length - 16 = pt.length := by
    rw [gcmSeal_length]; omega
  unfold gcmOpen
  rw [if_pos (by rw [gcmSeal_length]; omega), hlen]
  show (if gcmTag key nonce ((gcmSeal key nonce pt).take pt.length) =
      (gcmSeal key nonce pt).drop pt.length then _ else _) = _
  unfold gcmSeal
  rw [List.take_left' hct, List.drop_left' hct, if_pos rfl]
  congr 1
  rw [List.map_map]
  have hid : ((fun b => b - gcmKs key nonce) ∘ fun b => b + gcmKs key nonce) = id := by
    funext b; simp
  rw [hid, List.map_id]

/-! ### Column encryptor (`crypto.ColumnEncryptor`) -/

/-- `crypto.ColumnEncryptor`: the AES key plus the (nilable)
ephemeral-group keypair fields assigned by `format.NewWriter` /
`format.NewReader`. -/
structure ColumnEncryptor where
  key : List Nat
  kyberPublicKey : Option GroupPoint
  kyberSecretKey : Option GroupScalar
  deriving DecidableEq, Repr

/-- `crypto.NewColumnEncryptor`: rejects keys that are not 32 bytes;
otherwise builds an encryptor with unset (nil) group keys. -/
def NewColumnEncryptor (key : List Nat) : Option ColumnEncryptor :=
  if key.length = KeySize then
    some { key := key, kyberPublicKey := none, kyberSecretKey := none }
  else none

/-- The per-block working key: `SHA256(column_key ‖ encode(K_dh))`
(the two `sha256Hash.Write` calls followed by `Sum`). -/
def hybridKey (key : List Nat) (shared : GroupPoint) : List Nat :=
  sha256 (key ++ encodePoint shared)

/-- `ColumnEncryptor.Encrypt`: hybrid envelope
`encode(E) ‖ nonce ‖ GCM(K, nonce, pt)`.  The ephemeral scalar `e` and the
12-byte `nonce` are the randomness drawn inside the Go function, passed
here explicitly.  Returns `none` when the long-term scalar is unset
(the Go code would dereference a nil scalar). -/
def ColumnEncryptor.Encrypt (ce : ColumnEncryptor) (e : GroupScalar) (nonce pt : List Nat) :
    Option (List Nat) :=
  match ce.kyberSecretKey with
  | none => none
  | some s =>
      let ephemeralPublic := mulBase e
      let shared := pointMul s ephemeralPublic
      let k := hybridKey ce.key shared
      let ciphertextFinal := gcmSeal k nonce pt
      some (encodePoint ephemeralPublic ++ nonce ++ ciphertextFinal)

/-- `ColumnEncryptor.Decrypt`: parse `E` from the leading 32 bytes, the
nonce from the next 12, recompute `K_dh = s · E`, derive `K`, and
verify-and-decrypt. -/
def ColumnEncryptor.Decrypt (ce : ColumnEncryptor) (ciphertext : List Nat) :
    Option (List Nat) :=
  if ciphertext.length < 32 + NonceSize then none
  else
    let ephemeralPubBytes := ciphertext.take 32
    let nonce := (ciphertext.drop 32).take NonceSize
    let encryptedData := ciphertext.drop (32 + NonceSize)
    match decodePoint ephemeralPubBytes, ce.kyberSecretKey with
    | some ephemeralPublic, some s =>
        let shared := pointMul s ephemeralPublic
        let k := hybridKey ce.key shared
        gcmOpen k nonce encryptedData
    | _, _ => none

theorem encrypt_eq_parts (ce : ColumnEncryptor) (s e : GroupScalar)
    (nonce pt : List Nat) (hs : ce.kyberSecretKey = some s) :
    ce.Encrypt e nonce pt =
      some (encodePoint (mulBase e) ++ nonce ++
        gcmSeal (hybridKey ce.key (pointMul s (mulBase e))) nonce pt) := by
  unfold ColumnEncryptor.Encrypt
  rw [hs]

/-- Decryption inverts encryption for any encryptor whose long-term scalar
is set, for any 12-byte nonce and any ephemeral scalar. -/
theorem decrypt_encrypt (ce : ColumnEncryptor) (s e : GroupScalar)
    (nonce pt : List Nat) (hs : ce.kyberSecretKey = some s)
    (hn : nonce.length = NonceSize) :
    ∀ env, ce.Encrypt e nonce pt = some env → ce.Decrypt env = some pt := by
  intro env henv
  rw [encrypt_eq_parts ce s e nonce pt hs] at henv
  cases henv
  unfold ColumnEncryptor.Decrypt
  have hep : (encodePoint (mulBase e)).length = 32 := encodePoint_length _
  have hgl := gcmSeal_length (hybridKey ce.key (pointMul s (mulBase e))) nonce pt
  have hlen : (encodePoint (mulBase e) ++ nonce ++
      gcmSeal (hybridKey ce.key (pointMul s (mulBase e))) nonce pt).length
      = 32 + NonceSize + (pt.length + 16) := by
    simp only [List.length_append, hep, hn, hgl]
  have hns : NonceSize = 12 := rfl
  rw [if_neg (by rw [hlen, hns]; omega)]
  have htake : (encodePoint (mulBase e) ++ nonce ++
      gcmSeal (hybridKey ce.key (pointMul s (mulBase e))) nonce pt).take 32
      = encodePoint (mulBase e) := by
    rw [List.take_append_of_le_length
      (show (32:Nat) ≤ (encodePoint (mulBase e) ++ nonce).length by
        simp only [List.length_append, hep]; omega)]
    rw [List.take_append_of_le_length (le_of_eq hep.symm),
      List.take_of_length_le (le_of_eq hep)]
  have hdrop : (encodePoint (mulBase e) ++ nonce ++
      gcmSeal (hybridKey ce.key (pointMul s (mulBase e))) nonce pt).drop 32
      = nonce ++ gcmSeal (hybridKey ce.key (pointMul s (mulBase e))) nonce pt := by
    rw [List.drop_append_of_le_length
      (show (32:Nat) ≤ (encodePoint (mulBase e) ++ nonce).length by
        simp only [List.length_append, hep]; omega)]
    rw [List.drop_append_of_le_length (le_of_eq hep.symm),
      List.drop_of_length_le (le_of_eq hep), List.nil_append]
  have hnon : ((encodePoint (mulBase e) ++ nonce ++
      gcmSeal (hybridKey ce.key (pointMul s (mulBase e))) nonce pt).drop 32).take NonceSize
      = nonce := by
    rw [hdrop]
    exact List.take_left' hn
  have hdata : (encodePoint (mulBase e) ++ nonce ++
      gcmSeal (hybridKey ce.key (pointMul s (mulBase e))) nonce pt).drop (32 + NonceSize)
      = gcmSeal (hybridKey ce.key (pointMul s (mulBase e))) nonce pt := by
    apply List.drop_left'
    simp only [List.length_append, hep, hn]
  rw [htake, hnon, hdata]
  simp only [decodePoint_encodePoint, hs]
  exact gcmOpen_gcmSeal _ _ _

/-! ## Arrow data model

The claims exercise the Arrow types `int64`, `float64` and `utf8`; those
are the column types modelled here.  Go `float64` column values are
modelled as exact rationals (IEEE rounding is out of scope of the claims).
A null cell is `CellVal.vNull`; typed access `Value(row)` on a null cell
returns the Go zero value of the type, which the model reproduces where
the code does. -/

/-- Arrow column type (the subset exercised by the repository's claims). -/
inductive ColType where
  | int64
  | float64
  | utf8
  deriving DecidableEq, Repr

/-- One cell of a column: a typed value or null. -/
inductive CellVal where
  | vInt (i : Int)
  | vFloat (q : ℚ)
  | vStr (s : String)
  | vNull
  deriving DecidableEq, Repr

/-- `arrow.Field`: name, type, nullability (named `ArrowField` because Lean
reserves `Field`). -/
structure ArrowField where
  name : String
  type : ColType
  nullable : Bool
  deriving DecidableEq, Repr

/-- A schema is an ordered list of fields. -/
abbrev Schema := List ArrowField

/-- A column is the list of its cells. -/
abbrev Column := List CellVal

/-- `arrow.Record`: schema, columns, row count. -/
structure Rec where
  schema : Schema
  cols : List Column
  numRows : Nat
  deriving DecidableEq, Repr

/-! ### Injective byte codecs

Executable stand-ins for the external Arrow IPC stream codec and the JSON
metadata codec: each `enc*` is injective and each `decode*` consumes
exactly the bytes `enc*` produced, returning the decoded value and the
remaining bytes. -/

/-- Length-prefixed encoding of a raw byte list. -/
def encBytes (bs : List Nat) : List Nat := bs.length :: bs

/-- Decode a length-prefixed byte list. -/
def decodeBytes : List Nat → Option (List Nat × List Nat)
  | [] => none
  | n :: rest => if n ≤ rest.length then some (rest.take n, rest.drop n) else none

/-- Length-prefixed encoding of a string (as character code points). -/
def encStr (s : String) : List Nat := (strBytes s).length :: strBytes s

/-- Decode a length-prefixed string. -/
def decodeStr (bs : List Nat) : Option (String × List Nat) :=
  (decodeBytes bs).map fun (cs, rest) => (String.mk (cs.map Char.ofNat), rest)

/-- One-byte boolean encoding. -/
def encBool (b : Bool) : List Nat := [if b then 1 else 0]

/-- Decode a one-byte boolean. -/
def decodeBool : List Nat → Option (Bool × List Nat)
  | [] => none
  | n :: rest => some (n = 1, rest)

/-- Sign-and-magnitude encoding of an integer in two byte slots. -/
def encInt (i : Int) : List Nat := [if i < 0 then 1 else 0, i.natAbs]

/-- Decode a sign-and-magnitude integer. -/
def decodeInt : List Nat → Option (Int × List Nat)
  | sb :: n :: rest => some (if sb = 1 then -(n : Int) else (n : Int), rest)
  | _ => none

theorem decodeBytes_encBytes (bs rest : List Nat) :
    decodeBytes (encBytes bs ++ rest) = some (bs, rest) := by
  show decodeBytes (bs.length :: (bs ++ rest)) = some (bs, rest)
  simp [decodeBytes, List.take_left, List.drop_left]

theorem decodeStr_encStr (s : String) (rest : List Nat) :
    decodeStr (encStr s ++ rest) = some (s, rest) := by
  show decodeStr (encBytes (strBytes s) ++ rest) = some (s, rest)
  unfold decodeStr
  rw [decodeBytes_encBytes]
  show some (String.mk ((s.toList.map Char.toNat).map Char.ofNat), rest) = some (s, rest)
  rw [List.map_map]
  have hmap : (Char.ofNat ∘ Char.toNat) = id := by
    funext c
    exact Char.ofNat_toNat c
  rw [hmap, List.map_id]
  cases s
  rfl

theorem decodeBool_encBool (b : Bool) (rest : List Nat) :
    decodeBool (encBool b ++ rest) = some (b, rest) := by
  cases b <;> simp [encBool, decodeBool]

theorem decodeInt_encInt (i : Int) (rest : List Nat) :
    decodeInt (encInt i ++ rest) = some (i, rest) := by
  have hcons : encInt i ++ rest = (if i < 0 then 1 else 0) :: i.natAbs :: rest := rfl
  rw [hcons]
  by_cases h : i < 0
  · rw [if_pos h]
    show some ((if (1:ℕ) = 1 then -(i.natAbs : Int) else (i.natAbs : Int)), rest)
      = some (i, rest)
    rw [if_pos rfl]
    have hi : -(i.natAbs : Int) = i := by omega
    rw [hi]
  · rw [if_neg h]
    show some ((if (0:ℕ) = 1 then -(i.natAbs : Int) else (i.natAbs : Int)), rest)
      = some (i, rest)
    rw [if_neg (by omega)]
    have hi : ((i.natAbs : Int)) = i := by omega
    rw [hi]

/-- Encoding of one cell. -/
def encCell : CellVal → List Nat
  | .vNull => [0]
  | .vInt i => 1 :: encInt i
  | .vFloat q => 2 :: (encInt q.num ++ [q.den])
  | .vStr s => 3 :: encStr s

/-- Decode one cell. -/
def decodeCell : List Nat → Option (CellVal × List Nat)
  | 0 :: rest => some (.vNull, rest)
  | 1 :: rest => (decodeInt rest).map fun (i, r) => (.vInt i, r)
  | 2 :: rest =>
      (decodeInt rest).bind fun (n, r) =>
        match r with
        | [] => none
        | d :: r2 => some (.vFloat (mkRat n d), r2)
  | 3 :: rest => (decodeStr rest).map fun (s, r) => (.vStr s, r)
  | _ => none

theorem decodeCell_encCell (v : CellVal) (rest : List Nat) :
    decodeCell (encCell v ++ rest) = some (v, rest) := by
  cases v with
  | vNull => rfl
  | vInt i =>
      show decodeCell (1 :: (encInt i ++ rest)) = _
      simp only [decodeCell]
      rw [decodeInt_encInt]
      rfl
  | vFloat q =>
      show decodeCell (2 :: ((encInt q.num ++ [q.den]) ++ rest)) = _
      simp only [decodeCell]
      rw [List.append_assoc, decodeInt_encInt]
      show some (CellVal.vFloat (mkRat q.num q.den), rest) = _
      rw [Rat.mkRat_self]
  | vStr s =>
      show decodeCell (3 :: (encStr s ++ rest)) = _
      simp only [decodeCell]
      rw [decodeStr_encStr]
      rfl

/-- Concatenated encoding of a list of values. -/
def encSeq (enc : α → List Nat) : List α → List Nat
  | [] => []
  | x :: xs => enc x ++ encSeq enc xs

/-- Count-prefixed encoding of a list of values. -/
def encList (enc : α → List Nat) (xs : List α) : List Nat :=
  xs.length :: encSeq enc xs

/-- Decode `k` consecutive values. -/
def decodeSeq (dec : List Nat → Option (α × List Nat)) :
    Nat → List Nat → Option (List α × List Nat)
  | 0, bs => some ([], bs)
  | k + 1, bs =>
      (dec bs).bind fun (x, r) =>
        (decodeSeq dec k r).map fun (xs, r2) => (x :: xs, r2)

/-- Decode a count-prefixed list. -/
def decodeList (dec : List Nat → Option (α × List Nat)) :
    List Nat → Option (List α × List Nat)
  | [] => none
  | k :: rest => decodeSeq dec k rest

theorem decodeSeq_encSeq (dec : List Nat → Option (α × List Nat))
    (enc : α → List Nat)
    (hrt : ∀ x rest, dec (enc x ++ rest) = some (x, rest))
    (xs : List α) (rest : List Nat) :
    decodeSeq dec xs.length (encSeq enc xs ++ rest) = some (xs, rest) := by
  induction xs with
  | nil => rfl
  | cons x xs ih =>
      show decodeSeq dec (xs.length + 1) ((enc x ++ encSeq enc xs) ++ rest) = _
      unfold decodeSeq
      rw [List.append_assoc, hrt]
      show (decodeSeq dec xs.length (encSeq enc xs ++ rest)).map _ = _
      rw [ih]
      rfl

theorem decodeList_encList (dec : List Nat → Option (α × List Nat))
    (enc : α → List Nat)
    (hrt : ∀ x rest, dec (enc x ++ rest) = some (x, rest))
    (xs : List α) (rest : List Nat) :
    decodeList dec (encList enc xs ++ rest) = some (xs, rest) := by
  show decodeList dec (xs.length :: (encSeq enc xs ++ rest)) = _
  unfold decodeList
  exact decodeSeq_encSeq dec enc hrt xs rest

/-- Type tag of a column type. -/
def encColType : ColType → Nat
  | .int64 => 0
  | .float64 => 1
  | .utf8 => 2

/-- Decode a column-type tag. -/
def decodeColType : List Nat → Option (ColType × List Nat)
  | 0 :: rest => some (.int64, rest)
  | 1 :: rest => some (.float64, rest)
  | 2 :: rest => some (.utf8, rest)
  | _ => none

/-- Encoding of a schema field. -/
def encField (f : ArrowField) : List Nat :=
  encStr f.name ++ (encColType f.type :: encBool f.nullable)

/-- Decode a schema field. -/
def decodeField (bs : List Nat) : Option (ArrowField × List Nat) :=
  (decodeStr bs).bind fun (name, r1) =>
    (decodeColType r1).bind fun (t, r2) =>
      (decodeBool r2).map fun (nl, r3) => (⟨name, t, nl⟩, r3)

theorem decodeColType_encColType (t : ColType) (rest : List Nat) :
    decodeColType (encColType t :: rest) = some (t, rest) := by
  cases t <;> rfl

theorem decodeField_encField (f : ArrowField) (rest : List Nat) :
    decodeField (encField f ++ rest) = some (f, rest) := by
  simp [encField, decodeField, List.append_assoc, decodeStr_encStr,
    decodeColType_encColType, decodeBool_encBool]

/-- Model of the Arrow IPC encoding of a one-field, one-record batch, as
produced by `ipc.NewWriter` + `Write` in `Writer.WriteRecord`: the schema
field, the row count and the single column, as an injective byte stream. -/
def ipcEncode1 (f : ArrowField) (col : Column) (rows : Nat) : List Nat :=
  encField f ++ (rows :: encList encCell col)

/-- Model of `ipc.NewReader` + `Read` on a one-field stream. -/
def ipcDecode1 (bs : List Nat) : Option (ArrowField × Column × Nat) :=
  (decodeField bs).bind fun (f, r1) =>
    match r1 with
    | [] => none
    | rows :: r2 =>
        (decodeList decodeCell r2).map fun (col, _) => (f, col, rows)

theorem ipcDecode1_ipcEncode1 (f : ArrowField) (col : Column) (rows : Nat) :
    ipcDecode1 (ipcEncode1 f col rows) = some (f, col, rows) := by
  have hcells := decodeList_encList decodeCell encCell decodeCell_encCell
  simp [ipcEncode1, ipcDecode1, decodeField_encField, hcells]
  exact ⟨[], by have h := hcells col []; simpa using h⟩

/-! ## Metadata (`pkg/metadata/metadata.go`)

The model keeps the metadata fields the embedded operations consume:
the schema, the master salt (`Encryption.MasterSalt`), the block
directory and the audit-trail access log.  Timestamps (`time.Now`) are
external and not modelled; constant header/encryption parameters are
not consumed by any modelled operation. -/

/-- `metadata.BlockInfo` (offsets, lengths and row counts as `Nat`). -/
structure BlockInfo where
  columnName : String
  offset : Nat
  length : Nat
  rowCount : Nat
  compressed : Bool
  checksum : List Nat
  deriving DecidableEq, Repr

/-- `metadata.AccessEntry` (timestamp not modelled). -/
structure AccessEntry where
  principal : String
  action : String
  resource : String
  success : Bool
  details : String
  deriving DecidableEq, Repr

/-- `metadata.Metadata`, restricted to the consumed fields. -/
structure Metadata where
  schema : Schema
  masterSalt : List Nat
  blockInfo : List BlockInfo
  accessLog : List AccessEntry
  deriving DecidableEq, Repr

/-- `metadata.NewMetadata`: empty directory, empty access log. -/
def NewMetadata (schema : Schema) (masterSalt : List Nat) : Metadata :=
  { schema := schema
    masterSalt := masterSalt
    blockInfo := []
    accessLog := [] }

/-- `Metadata.AddBlockInfo`: append a directory entry (`Compressed` false). -/
def Metadata.AddBlockInfo (m : Metadata) (columnName : String)
    (offset length rowCount : Nat) (checksum : List Nat) : Metadata :=
  { m with blockInfo := m.blockInfo ++
      [{ columnName := columnName, offset := offset, length := length,
         rowCount := rowCount, compressed := false, checksum := checksum }] }

/-- `Metadata.LogAccess`: append an audit entry. -/
def Metadata.LogAccess (m : Metadata) (principal action resource : String)
    (success : Bool) (details : String) : Metadata :=
  { m with accessLog := m.accessLog ++
      [{ principal := principal, action := action, resource := resource,
         success := success, details := details }] }

/-- Encoding of one directory entry. -/
def encBlockInfo (b : BlockInfo) : List Nat :=
  encStr b.columnName ++ (b.offset :: b.length :: b.rowCount ::
    (encBool b.compressed ++ encBytes b.checksum))

/-- Decode one directory entry. -/
def decodeBlockInfo (bs : List Nat) : Option (BlockInfo × List Nat) :=
  (decodeStr bs).bind fun (name, r1) =>
    match r1 with
    | o :: l :: rc :: r2 =>
        (decodeBool r2).bind fun (c, r3) =>
          (decodeBytes r3).map fun (ck, r4) => (⟨name, o, l, rc, c, ck⟩, r4)
    | _ => none

/-- Encoding of one audit entry. -/
def encAccessEntry (e : AccessEntry) : List Nat :=
  encStr e.principal ++ encStr e.action ++ encStr e.resource ++
    encBool e.success ++ encStr e.details

/-- Decode one audit entry. -/
def decodeAccessEntry (bs : List Nat) : Option (AccessEntry × List Nat) :=
  (decodeStr bs).bind fun (p, r1) =>
    (decodeStr r1).bind fun (a, r2) =>
      (decodeStr r2).bind fun (rs, r3) =>
        (decodeBool r3).bind fun (su, r4) =>
          (decodeStr r4).map fun (d, r5) => (⟨p, a, rs, su, d⟩, r5)

/-- `Metadata.Serialize`: the JSON metadata record, modelled as an
injective byte encoding of the consumed fields (schema, master salt,
block directory, access log). -/
def Metadata.Serialize (m : Metadata) : List Nat :=
  encList encField m.schema ++ encBytes m.masterSalt ++
    encList encBlockInfo m.blockInfo ++ encList encAccessEntry m.accessLog

/-- `metadata.Deserialize`: parse the serialized metadata. -/
def MetadataDeserialize (bs : List Nat) : Option Metadata :=
  (decodeList decodeField bs).bind fun (schema, r1) =>
    (decodeBytes r1).bind fun (salt, r2) =>
      (decodeList decodeBlockInfo r2).bind fun (blocks, r3) =>
        (decodeList decodeAccessEntry r3).map fun (logEntries, _) =>
          ⟨schema, salt, blocks, logEntries⟩

/-! ## File format layer (`pkg/format/format.go`) -/

/-- Error taxonomy of the format layer (Go wraps these as `fmt.Errorf`
strings; the constructors carry the column name where the Go message
does). -/
inductive LbError where
  | ioRead (column : String)
  | corruptedBlock (column : String)
  | noBlockInfo (column : String)
  | noEncryptor (column : String)
  | encryptFailed (column : String)
  | decryptFailed (column : String)
  | deserializeFailed (column : String)
  | readonlyFile
  | badMagic
  | badVersion
  | noMetadata
  | truncated
  | badMetadata
  | invalidPassword
  deriving DecidableEq, Repr

/-- `metadata.MagicBytes` = `"LOCKBOX\x00"`. -/
def MagicBytes : List Nat := [76, 79, 67, 75, 66, 79, 88, 0]

/-- `metadata.FileFormatVersion`. -/
def FileFormatVersion : Nat := 1

/-- `format.LockboxFile`: the on-disk bytes plus the in-memory metadata. -/
structure LockboxFile where
  fileBytes : List Nat
  meta : Metadata
  readonly : Bool
  deriving DecidableEq, Repr

/-- `writeHeader`: 8-byte magic, three little-endian `u32` fields
(version, flags, reserved) and the 8-byte metadata-offset slot. -/
def headerBytes (metadataOffset : Nat) : List Nat :=
  MagicBytes ++ toLE 4 FileFormatVersion ++ toLE 4 0 ++ toLE 4 0 ++ toLE 8 metadataOffset

/-- `LockboxFile.updateMetadata`: seek to end of file, write the
length-prefixed serialized metadata there, then overwrite the
metadata-offset slot at byte 20 with that position. -/
def LockboxFile.updateMetadata (lbf : LockboxFile) : Except LbError LockboxFile :=
  if lbf.readonly then .error .readonlyFile
  else
    let metadataPos := lbf.fileBytes.length
    let metadataBytes := lbf.meta.Serialize
    let afterAppend := lbf.fileBytes ++ (toLE 4 metadataBytes.length ++ metadataBytes)
    .ok { lbf with fileBytes := writeAt afterAppend 20 (toLE 8 metadataPos) }

/-- `format.Create`: generate the master key (randomness explicit), build
fresh metadata, write the header with a zero offset slot, then write the
initial metadata trailer. -/
def FormatCreate (schema : Schema) (password : String) (saltRand : List Nat)
    (scalarRand : GroupScalar) : Except LbError LockboxFile :=
  let masterKey := NewKey password saltRand scalarRand
  let meta := NewMetadata schema masterKey.salt
  let lbf : LockboxFile := { fileBytes := headerBytes 0, meta := meta, readonly := false }
  lbf.updateMetadata

/-- `readHeader`: parse magic, version, metadata offset, then the
length-prefixed metadata trailer. -/
def readHeaderBytes (bytes : List Nat) : Except LbError Metadata :=
  match readAt bytes 0 8 with
  | none => .error .truncated
  | some magic =>
      if magic ≠ MagicBytes then .error .badMagic
      else match readAt bytes 8 4 with
        | none => .error .truncated
        | some ver =>
            if fromLE ver ≠ FileFormatVersion then .error .badVersion
            else match readAt bytes 20 8 with
              | none => .error .truncated
              | some offBytes =>
                  let metadataOffset := fromLE offBytes
                  if metadataOffset = 0 then .error .noMetadata
                  else match readAt bytes metadataOffset 4 with
                    | none => .error .truncated
                    | some lenBytes =>
                        match readAt bytes (metadataOffset + 4) (fromLE lenBytes) with
                        | none => .error .truncated
                        | some metadataBytes =>
                            match MetadataDeserialize metadataBytes with
                            | none => .error .badMetadata
                            | some m => .ok m

/-- `format.Open`: read header and metadata, then "verify password by
attempting to derive key" — the nil check on `DeriveKey`'s result. -/
def FormatOpen (bytes : List Nat) (password : String) : Except LbError LockboxFile :=
  match readHeaderBytes bytes with
  | .error e => .error e
  | .ok meta =>
      let derivedKey := DeriveKeyOpt password meta.masterSalt
      if derivedKey.isNone then .error .invalidPassword
      else .ok { fileBytes := bytes, meta := meta, readonly := false }

/-- The per-column encryptor table built by `NewWriter` / `NewReader`:
column key from `DeriveColumnKey`, group keypair copied from the master
key.  Defined for exactly the schema's field names. -/
def mkEncryptors (masterKey : Key) (schema : Schema) (salt : List Nat) :
    String → Option ColumnEncryptor := fun name =>
  if (schema.map ArrowField.name).contains name then
    match NewColumnEncryptor (DeriveColumnKey masterKey.data name salt) with
    | none => none
    | some e => some { e with kyberPublicKey := masterKey.kyberPublicKey,
                              kyberSecretKey := masterKey.kyberSecretKey }
  else none

/-- `format.Writer` (declared under a `Format` prefix because Lean has a
`Writer` monad). -/
structure Format.Writer where
  file : LockboxFile
  encryptors : String → Option ColumnEncryptor
  masterKey : List Nat

/-- `format.Reader`. -/
structure Format.Reader where
  file : LockboxFile
  encryptors : String → Option ColumnEncryptor
  masterKey : List Nat

/-- `LockboxFile.NewWriter`: readonly check, derive master key and the
per-column encryptors.  (The Go error paths for a nil master key and for
`NewColumnEncryptor` on a 32-byte key are unreachable.) -/
def LockboxFile.NewWriter (lbf : LockboxFile) (password : String) : Except LbError Format.Writer :=
  if lbf.readonly then .error .readonlyFile
  else
    let masterKey := DeriveKey password lbf.meta.masterSalt
    .ok { file := lbf
          encryptors := mkEncryptors masterKey lbf.meta.schema lbf.meta.masterSalt
          masterKey := masterKey.data }

/-- `LockboxFile.NewReader`: like `NewWriter` without the readonly check. -/
def LockboxFile.NewReader (lbf : LockboxFile) (password : String) : Format.Reader :=
  let masterKey := DeriveKey password lbf.meta.masterSalt
  { file := lbf
    encryptors := mkEncryptors masterKey lbf.meta.schema lbf.meta.masterSalt
    masterKey := masterKey.data }

/-- The per-column result of `WriteRecord`'s parallel phase. -/
structure ColResult where
  field : ArrowField
  data : List Nat
  checksum : List Nat
  deriving DecidableEq, Repr

/-- One worker of `WriteRecord`'s parallel phase: wrap the column in a
one-field batch, serialize, encrypt (ephemeral scalar and nonce passed as
the worker's randomness), checksum. -/
def processColumn (w : Format.Writer) (rows : Nat) (f : ArrowField) (col : Column)
    (rand : GroupScalar × List Nat) : Except LbError ColResult :=
  let serialized := ipcEncode1 f col rows
  match w.encryptors f.name with
  | none => .error (.noEncryptor f.name)
  | some encryptor =>
      match encryptor.Encrypt rand.1 rand.2 serialized with
      | none => .error (.encryptFailed f.name)
      | some enc => .ok { field := f, data := enc, checksum := sha256 enc }

/-- The joined results of the parallel phase, in column order.
`rand i` is the randomness drawn by the worker of column `i`. -/
def writeResults (w : Format.Writer) (rec : Rec) (rand : Nat → GroupScalar × List Nat) :
    List (Except LbError ColResult) :=
  (rec.schema.zip rec.cols).enum.map fun p =>
    processColumn w rec.numRows p.2.1 p.2.2 (rand p.1)

/-- First error of a result list, in index order
(the `for _, r := range results` error check). -/
def firstErr : List (Except LbError α) → Option LbError
  | [] => none
  | .error e :: _ => some e
  | .ok _ :: rest => firstErr rest

/-- The payloads of an all-ok result list. -/
def collectOk : List (Except LbError α) → List α
  | [] => []
  | .error _ :: rest => collectOk rest
  | .ok r :: rest => r :: collectOk rest

/-- The serial append phase: for each result, record the end-of-file
position, append the encrypted payload, and add the directory entry. -/
def appendBlocks (rows : Nat) : LockboxFile → List ColResult → LockboxFile
  | lbf, [] => lbf
  | lbf, r :: rest =>
      let blockStart := lbf.fileBytes.length
      appendBlocks rows
        { lbf with
          fileBytes := lbf.fileBytes ++ r.data
          meta := lbf.meta.AddBlockInfo r.field.name blockStart r.data.length rows r.checksum }
        rest

/-- `Writer.WriteRecord`: parallel phase, first-error check, serial
append, audit entry, trailer rewrite.  Returns the resulting file state
and the error, the input state unchanged when the parallel phase failed. -/
def Format.Writer.WriteRecord (w : Format.Writer) (rec : Rec) (rand : Nat → GroupScalar × List Nat) :
    LockboxFile × Option LbError :=
  let results := writeResults w rec rand
  match firstErr results with
  | some e => (w.file, some e)
  | none =>
      let details := "wrote " ++ toString rec.numRows ++ " rows"
      let lbf := appendBlocks rec.numRows w.file (collectOk results)
      let lbf := { lbf with meta := lbf.meta.LogAccess "system" "write" "record" true details }
      match lbf.updateMetadata with
      | .error e => (lbf, some e)
      | .ok lbf2 => (lbf2, none)

/-- The first directory entry whose column name matches (the read path's
block lookup loop with `break`). -/
def findBlock (blocks : List BlockInfo) (name : String) : Option BlockInfo :=
  blocks.find? fun b => b.columnName = name

/-- Sequential block lookup over a field list: the read pipeline returns
the `no block info` error of the first uncovered field, in field order. -/
def lookupBlocks (blocks : List BlockInfo) :
    List ArrowField → Except LbError (List (ArrowField × BlockInfo))
  | [] => .ok []
  | f :: fs =>
      match findBlock blocks f.name with
      | none => .error (.noBlockInfo f.name)
      | some bi => (lookupBlocks blocks fs).map fun rest => (f, bi) :: rest

/-- One worker of the read pipeline: positional read, checksum
verification, decrypt, deserialize. -/
def readColumn (r : Format.Reader) (f : ArrowField) (bi : BlockInfo) : Except LbError Column :=
  match readAt r.file.fileBytes bi.offset bi.length with
  | none => .error (.ioRead f.name)
  | some encryptedData =>
      if sha256 encryptedData ≠ bi.checksum then .error (.corruptedBlock f.name)
      else match r.encryptors f.name with
        | none => .error (.noEncryptor f.name)
        | some encryptor =>
            match encryptor.Decrypt encryptedData with
            | none => .error (.decryptFailed f.name)
            | some dec =>
                match ipcDecode1 dec with
                | none => .error (.deserializeFailed f.name)
                | some (_, col, _) => .ok col

/-- `Reader.ReadRecord`: all schema fields; first missing block aborts in
field order; per-column read/verify/decrypt/deserialize; first error in
field order; row count taken from the first column (`NewRecord` with
`-1`).  The in-memory audit append is not observable in the returned
record and is omitted. -/
def Format.Reader.ReadRecord (r : Format.Reader) : Except LbError Rec :=
  match lookupBlocks r.file.meta.blockInfo r.file.meta.schema with
  | .error e => .error e
  | .ok pairs =>
      let results := pairs.map fun p => readColumn r p.1 p.2
      match firstErr results with
      | some e => .error e
      | none =>
          let arrays := collectOk results
          .ok { schema := r.file.meta.schema, cols := arrays
                numRows := (arrays.headD []).length }

/-- `Reader.ReadColumns`: restrict to the schema fields named in the
projection (an empty projection selects every field; names matching no
schema field select nothing), then read as in `ReadRecord`, with the
projected schema. -/
def Format.Reader.ReadColumns (r : Format.Reader) (columns : List String) : Except LbError Rec :=
  let selectedFields := r.file.meta.schema.filter fun f =>
    columns.isEmpty || columns.contains f.name
  match lookupBlocks r.file.meta.blockInfo selectedFields with
  | .error e => .error e
  | .ok pairs =>
      let results := pairs.map fun p => readColumn r p.1 p.2
      match firstErr results with
      | some e => .error e
      | none =>
          let arrays := collectOk results
          .ok { schema := selectedFields, cols := arrays
                numRows := (arrays.headD []).length }

/-- `LockboxFile.ValidateBlocks`' walk: the first block that cannot be
read or whose recomputed SHA-256 differs from the directory checksum. -/
def validateLoop (bytes : List Nat) : List BlockInfo → Option LbError
  | [] => none
  | b :: rest =>
      match readAt bytes b.offset b.length with
      | none => some (.ioRead b.columnName)
      | some data =>
          if sha256 data ≠ b.checksum then some (.corruptedBlock b.columnName)
          else validateLoop bytes rest

/-- `LockboxFile.ValidateBlocks`: `none` is success. -/
def LockboxFile.ValidateBlocks (lbf : LockboxFile) : Option LbError :=
  validateLoop lbf.fileBytes lbf.meta.blockInfo

/-- The repair walk's per-block test: the block reads back
(`ReadAt` succeeded) and its recomputed SHA-256 matches the directory
checksum. -/
def blockOk (bytes : List Nat) (b : BlockInfo) : Bool :=
  match readAt bytes b.offset b.length with
  | none => false
  | some data => sha256 data = b.checksum

/-- `LockboxFile.Repair`: keep only the blocks that read back with a
matching checksum (unreadable blocks are skipped by `continue`), then
rewrite the trailer. -/
def LockboxFile.Repair (lbf : LockboxFile) : Except LbError LockboxFile :=
  let valid := lbf.meta.blockInfo.filter (blockOk lbf.fileBytes)
  LockboxFile.updateMetadata { lbf with meta := { lbf.meta with blockInfo := valid } }

/-! ## Query operator (`lockbox.go`)

Ports of the string helpers consumed from the Go standard library are
restricted to the ASCII/decimal subset the queries of this repository
exercise (Unicode case folding and the full `ParseFloat` grammar are out
of scope). -/

/-- ASCII uppercase of a string (model of `strings.ToUpper`; Unicode
folding out of scope). -/
def goToUpper (s : String) : String := String.mk (s.data.map Char.toUpper)

/-- ASCII lowercase of a string (model of `strings.ToLower`). -/
def goToLower (s : String) : String := String.mk (s.data.map Char.toLower)

/-- Split at every character satisfying `p` (keeping empty pieces). -/
def splitChars (p : Char → Bool) : List Char → List Char → List String
  | [], acc => [String.mk acc.reverse]
  | c :: cs, acc =>
      if p c then String.mk acc.reverse :: splitChars p cs []
      else splitChars p cs (c :: acc)

/-- `strings.Fields`: whitespace-separated tokens, empties dropped. -/
def goFields (s : String) : List String :=
  (splitChars Char.isWhitespace s.data []).filter (fun t => t ≠ "")

/-- `strings.Split` with a one-character separator. -/
def splitOnChar (s : String) (sep : Char) : List String :=
  splitChars (fun c => c = sep) s.data []

/-- `strings.TrimSpace`. -/
def goTrimSpace (s : String) : String :=
  String.mk (((s.data.dropWhile Char.isWhitespace).reverse.dropWhile
    Char.isWhitespace).reverse)

/-- `strings.Join` with a single-space separator. -/
def joinSpace : List String → String
  | [] => ""
  | [x] => x
  | x :: y :: xs => x ++ " " ++ joinSpace (y :: xs)

/-- `strings.Trim`: remove leading and trailing runs of cutset characters. -/
def trimCutset (s : String) (cut : List Char) : String :=
  String.mk (((s.toList.dropWhile (fun c => cut.contains c)).reverse.dropWhile
    (fun c => cut.contains c)).reverse)

/-- Parse a nonempty all-digit character run. -/
def parseDigits (cs : List Char) : Option Nat :=
  if cs ≠ [] ∧ cs.all Char.isDigit then
    some (cs.foldl (fun a c => a * 10 + (c.toNat - 48)) 0)
  else none

/-- `strconv.Atoi` (sign and decimal digits). -/
def goAtoi (s : String) : Option Int :=
  match s.toList with
  | '-' :: rest => (parseDigits rest).map fun n => -(n : Int)
  | '+' :: rest => (parseDigits rest).map fun n => (n : Int)
  | cs => (parseDigits cs).map fun n => (n : Int)

/-- `strconv.ParseFloat` on `[sign] digits [. digits]`, as an exact
rational (model of the external primitive; IEEE rounding and the
exponent/hex grammar are out of scope of the claims). -/
def goParseFloat (s : String) : Option ℚ :=
  let core : String → Option ℚ := fun t =>
    match splitOnChar t '.' with
    | [a] => (parseDigits a.toList).map fun n => (n : ℚ)
    | [a, b] =>
        match parseDigits a.toList, parseDigits b.toList with
        | some n, some m => some ((n : ℚ) + (m : ℚ) / (10 : ℚ) ^ b.length)
        | _, _ => none
    | _ => none
  match s.toList with
  | '-' :: rest => (core (String.mk rest)).map fun q => -q
  | '+' :: rest => core (String.mk rest)
  | _ => core s

/-- `parsedQuery` (Go zero values; `Limit` starts at `-1`). -/
structure ParsedQuery where
  selectCols : List String
  whereCol : String
  whereOp : String
  whereVal : String
  orderCol : String
  orderDesc : Bool
  limit : Int
  deriving DecidableEq, Repr

/-- The clause loop of `parseQuery`, over the tokens from index
`fromIdx + 2` on (Go iterates an index `i`; the model recurses on the
remaining token list, which is the same traversal). -/
def parseClauses : List String → ParsedQuery → Option ParsedQuery
  | [], pq => some pq
  | "WHERE" :: rest, pq =>
      match rest with
      | col :: op :: val :: rest2 =>
          parseClauses rest2
            { pq with whereCol := goToLower col, whereOp := op, whereVal := val }
      | _ => none
  | "ORDER" :: rest, pq =>
      match rest with
      | b :: col :: x :: rest2 =>
          if b ≠ "BY" then none
          else
            let pq2 := { pq with orderCol := goToLower col }
            if x = "DESC" ∨ x = "ASC" then
              parseClauses rest2 { pq2 with orderDesc := x = "DESC" }
            else parseClauses (x :: rest2) pq2
      | _ => none
  | "LIMIT" :: rest, pq =>
      match rest with
      | v :: rest2 =>
          match goAtoi v with
          | none => none
          | some n => parseClauses rest2 { pq with limit := n }
      | _ => none
  | _ :: rest, pq => parseClauses rest pq

/-- `parseQuery`: uppercase the whole query, split into whitespace
tokens, extract the select list before `FROM`, then scan the clauses
starting after `FROM data`. -/
def parseQuery (q : String) : Option ParsedQuery :=
  let pq0 : ParsedQuery := ⟨[], "", "", "", "", false, -1⟩
  let upper := goToUpper q
  let parts := goFields upper
  if parts.length < 4 ∨ parts.headD "" ≠ "SELECT" then none
  else
    match parts.findIdx? (fun p => p = "FROM") with
    | none => none
    | some fromIdx =>
        if fromIdx = 1 then none
        else
          let selectRaw := joinSpace ((parts.take fromIdx).drop 1)
          let cols := splitOnChar selectRaw ','
          let selectCols := ((cols.map goTrimSpace).filter
            (fun c => c ≠ "*" ∧ c ≠ "")).map goToLower
          parseClauses (parts.drop (fromIdx + 2)) { pq0 with selectCols := selectCols }

/-- The dynamic `interface{}` value produced by `getValue`. -/
inductive GoValue where
  | gInt (i : Int)
  | gFloat (q : ℚ)
  | gStr (s : String)
  deriving DecidableEq, Repr

/-- `getValue`: null cells (and unsupported array types) become the
sentinel string `"NULL"`; otherwise the typed value. -/
def getValue (col : Column) (row : Nat) : GoValue :=
  match col.getD row CellVal.vNull with
  | .vNull => .gStr "NULL"
  | .vInt i => .gInt i
  | .vFloat q => .gFloat q
  | .vStr s => .gStr s

/-- `matchValue`: numeric cells compare against `ParseFloat` of the
literal as float64; string cells support `=` against the literal with
surrounding quotes trimmed. -/
def matchValue (col : Column) (row : Nat) (op val : String) : Bool :=
  let cv := getValue col row
  let fVal? := goParseFloat val
  match cv with
  | .gInt v =>
      match fVal? with
      | none => false
      | some fVal =>
          if op = ">" then decide ((v : ℚ) > fVal)
          else if op = "<" then decide ((v : ℚ) < fVal)
          else if op = "=" then decide ((v : ℚ) = fVal)
          else if op = ">=" then decide ((v : ℚ) ≥ fVal)
          else if op = "<=" then decide ((v : ℚ) ≤ fVal)
          else false
  | .gFloat v =>
      match fVal? with
      | none => false
      | some fVal =>
          if op = ">" then decide (v > fVal)
          else if op = "<" then decide (v < fVal)
          else if op = "=" then decide (v = fVal)
          else if op = ">=" then decide (v ≥ fVal)
          else if op = "<=" then decide (v ≤ fVal)
          else false
  | .gStr v =>
      if op = "=" then decide (v = trimCutset val ['\'', '"'])
      else false

/-- `less`: same-typed comparison; Go panics on mixed dynamic types
(model: `false`; no claim exercises mixed-type ordering). -/
def goLess : GoValue → GoValue → Bool
  | .gInt a, .gInt b => decide (a < b)
  | .gFloat a, .gFloat b => decide (a < b)
  | .gStr a, .gStr b => decide (a < b)
  | _, _ => false

/-- Insert into a sorted list by a strict comparator. -/
def insertByLt (lt : α → α → Bool) (x : α) : List α → List α
  | [] => [x]
  | y :: ys => if lt x y then x :: y :: ys else y :: insertByLt lt x ys

/-- Comparison sort (model of `sort.Slice`; tie order of an unstable
quicksort is unspecified and out of claim scope). -/
def sortByLt (lt : α → α → Bool) : List α → List α
  | [] => []
  | x :: xs => insertByLt lt x (sortByLt lt xs)

/-- The index walk behind `FieldIndices`, starting at index `k`. -/
def fieldIndicesAux (name : String) : Schema → Nat → List Nat
  | [], _ => []
  | f :: fs, k =>
      if f.name = name then k :: fieldIndicesAux name fs (k + 1)
      else fieldIndicesAux name fs (k + 1)

/-- `arrow.Schema.FieldIndices`: indices of the fields with this name. -/
def fieldIndices (schema : Schema) (name : String) : List Nat :=
  fieldIndicesAux name schema 0

/-- `appendValue` into the builder of column type `t`: the Go builders
receive `Value(row)`, which is the Go zero value on a null cell
(no `AppendNull` call). -/
def appendValue (t : ColType) (col : Column) (row : Nat) : CellVal :=
  match col.getD row CellVal.vNull with
  | .vInt i => .vInt i
  | .vFloat q => .vFloat q
  | .vStr s => .vStr s
  | .vNull =>
      match t with
      | .int64 => .vInt 0
      | .float64 => .vFloat 0
      | .utf8 => .vStr ""

/-- `applyQuery`: WHERE filter, ORDER BY, LIMIT, then materialize the
selected columns.  `none` models the slice-index panic that
`rec.Schema().FieldIndices(name)[0]` raises when the name matches no
field of the record. -/
def applyQuery (rec : Rec) (pq : ParsedQuery) : Option Rec :=
  let idx0 := List.range rec.numRows
  let step1 : Option (List Nat) :=
    if pq.whereCol ≠ "" then
      match (fieldIndices rec.schema pq.whereCol).head? with
      | none => none
      | some i0 =>
          let col := rec.cols.getD i0 []
          some (idx0.filter fun r => matchValue col r pq.whereOp pq.whereVal)
    else some idx0
  step1.bind fun idx1 =>
    let step2 : Option (List Nat) :=
      if pq.orderCol ≠ "" then
        match (fieldIndices rec.schema pq.orderCol).head? with
        | none => none
        | some i0 =>
            let col := rec.cols.getD i0 []
            some (sortByLt (fun a b =>
              if pq.orderDesc then goLess (getValue col b) (getValue col a)
              else goLess (getValue col a) (getValue col b)) idx1)
      else some idx1
    step2.bind fun idx2 =>
      let idx3 := if 0 ≤ pq.limit ∧ pq.limit < (idx2.length : Int)
        then idx2.take pq.limit.toNat else idx2
      let sel := if pq.selectCols.isEmpty then rec.schema.map ArrowField.name
        else pq.selectCols
      let built : Option (List (ArrowField × Column)) :=
        sel.mapM fun name =>
          ((fieldIndices rec.schema name).head?).map fun fIdx =>
            let field := rec.schema.getD fIdx ⟨"", .utf8, false⟩
            let col := rec.cols.getD fIdx []
            (field, idx3.map fun row => appendValue field.type col row)
      built.map fun fc =>
        { schema := fc.map Prod.fst, cols := fc.map Prod.snd, numRows := idx3.length }

/-- Outcome of `Lockbox.Query`: a record, an error, a parse error, or a
runtime panic. -/
inductive QueryOutcome where
  | ok (r : Rec)
  | err (e : LbError)
  | parseErr
  | panicked
  deriving DecidableEq, Repr

/-- `Lockbox.Query`: parse, compute the required column set
(projection ∪ WHERE column ∪ ORDER BY column), read those columns, and
apply the query. -/
def LockboxQuery (lbf : LockboxFile) (password : String) (q : String) : QueryOutcome :=
  match parseQuery q with
  | none => .parseErr
  | some pq =>
      let req0 := pq.selectCols
      let req1 := if pq.whereCol ≠ "" ∧ ¬ (req0.contains pq.whereCol)
        then req0 ++ [pq.whereCol] else req0
      let req2 := if pq.orderCol ≠ "" ∧ ¬ (req1.contains pq.orderCol)
        then req1 ++ [pq.orderCol] else req1
      let reader := lbf.NewReader password
      match reader.ReadColumns req2 with
      | .error e => .err e
      | .ok rec =>
          match applyQuery rec pq with
          | none => .panicked
          | some result => .ok result

/-! ## Shared facts about the embedded operations -/

instance : Inhabited BlockInfo := ⟨⟨"", 0, 0, 0, false, []⟩⟩

instance : Inhabited ArrowField := ⟨⟨"", .utf8, false⟩⟩

theorem pbkdf2Key_length (password salt : List Nat) (iters : Nat) :
    (pbkdf2Key password salt iters 32).length = 32 := by
  unfold pbkdf2Key
  rw [List.length_take, sha256_length]
  rfl

theorem firstErr_nil : firstErr ([] : List (Except LbError α)) = none := rfl

theorem firstErr_map_ok (l : List β) (f : β → α) :
    firstErr (l.map fun b => (Except.ok (f b) : Except LbError α)) = none := by
  induction l with
  | nil => rfl
  | cons x xs ih => simpa [firstErr] using ih

theorem collectOk_map_ok (l : List β) (f : β → α) :
    collectOk (l.map fun b => (Except.ok (f b) : Except LbError α)) = l.map f := by
  induction l with
  | nil => rfl
  | cons x xs ih => simpa [collectOk] using ih

theorem firstErr_of_getElem (l : List (Except LbError α)) (i : Nat) (e : LbError)
    (hi : l[i]? = some (.error e))
    (hprev : ∀ j, j < i → ∃ r, l[j]? = some (.ok r)) :
    firstErr l = some e := by
  induction l generalizing i with
  | nil => simp at hi
  | cons x xs ih =>
      cases i with
      | zero =>
          simp at hi
          rw [hi]
          rfl
      | succ i =>
          obtain ⟨r, hr⟩ := hprev 0 (Nat.succ_pos i)
          simp at hr
          rw [hr]
          show firstErr xs = some e
          exact ih i (by simpa using hi) (fun j hj => by
            have := hprev (j + 1) (by omega)
            simpa using this)

/-! ## Claim theorems -/

/-- C2: For every `ColumnEncryptor` built from a 32-byte key with its
long-term scalar set, and every plaintext, `Encrypt` emits the envelope
`encode(E) ‖ nonce ‖ ciphertext_and_tag` with component sizes 32, 12 and
`|pt| + 16`, and `Decrypt` of that envelope under the same encryptor
returns exactly the plaintext. -/
theorem encrypt_envelope_decrypt (key : List Nat) (ce0 : ColumnEncryptor)
    (s e : GroupScalar) (nonce pt : List Nat)
    (hce : NewColumnEncryptor key = some ce0)
    (hn : nonce.length = NonceSize) :
    ∃ env,
      ColumnEncryptor.Encrypt ⟨ce0.key, some (mulBase s), some s⟩ e nonce pt = some env ∧
      env.length = 32 + 12 + (pt.length + 16) ∧
      env.take 32 = encodePoint (mulBase e) ∧
      (env.drop 32).take 12 = nonce ∧
      env.drop 44 = gcmSeal (hybridKey ce0.key (pointMul s (mulBase e))) nonce pt ∧
      ColumnEncryptor.Decrypt ⟨ce0.key, some (mulBase s), some s⟩ env = some pt := by
  have hns : NonceSize = 12 := rfl
  rw [hns] at hn
  set ce : ColumnEncryptor := ⟨ce0.key, some (mulBase s), some s⟩ with hcedef
  have hs : ce.kyberSecretKey = some s := rfl
  set ct := gcmSeal (hybridKey ce0.key (pointMul s (mulBase e))) nonce pt with hct
  have henv : ce.Encrypt e nonce pt = some (encodePoint (mulBase e) ++ nonce ++ ct) :=
    encrypt_eq_parts ce s e nonce pt hs
  refine ⟨encodePoint (mulBase e) ++ nonce ++ ct, henv, ?_, ?_, ?_, ?_, ?_⟩
  · simp only [List.length_append, encodePoint_length, hn, hct, gcmSeal_length]
  · rw [List.take_append_of_le_length
      (show (32:Nat) ≤ (encodePoint (mulBase e) ++ nonce).length by
        simp only [List.length_append, encodePoint_length]; omega)]
    rw [List.take_append_of_le_length (le_of_eq (encodePoint_length _).symm),
      List.take_of_length_le (le_of_eq (encodePoint_length _))]
  · rw [List.drop_append_of_le_length
      (show (32:Nat) ≤ (encodePoint (mulBase e) ++ nonce).length by
        simp only [List.length_append, encodePoint_length]; omega)]
    rw [List.drop_append_of_le_length (le_of_eq (encodePoint_length _).symm),
      List.drop_of_length_le (le_of_eq (encodePoint_length _)), List.nil_append,
      List.take_left' hn]
  · apply List.drop_left'
    simp only [List.length_append, encodePoint_length, hn]
  · exact decrypt_encrypt ce s e nonce pt hs (by rw [hns]; exact hn) _ henv

/-- Witness for C2 at a concrete key, scalars, nonce and plaintext. -/
theorem encrypt_envelope_decrypt_witness :
    ∃ env,
      ColumnEncryptor.Encrypt ⟨List.replicate 32 0, some (mulBase 3), some 3⟩
        5 (List.replicate 12 1) [10, 20] = some env ∧
      env.length = 32 + 12 + (([10, 20] : List Nat).length + 16) ∧
      env.take 32 = encodePoint (mulBase 5) ∧
      (env.drop 32).take 12 = List.replicate 12 1 ∧
      env.drop 44 = gcmSeal (hybridKey (List.replicate 32 0) (pointMul 3 (mulBase 5)))
        (List.replicate 12 1) [10, 20] ∧
      ColumnEncryptor.Decrypt ⟨List.replicate 32 0, some (mulBase 3), some 3⟩ env
        = some [10, 20] :=
  encrypt_envelope_decrypt (List.replicate 32 0) ⟨List.replicate 32 0, none, none⟩
    3 5 (List.replicate 12 1) [10, 20] (by rfl) (by rfl)

/-- C3 counterexample: two runs of `NewKey` with the same password and the
same salt randomness but different scalar randomness return identical
symmetric key bytes yet different scalars — the returned scalar/point pair
is *not* a deterministic function of the returned key bytes (`NewKey`
draws its scalar with `Pick(random.New())`). -/
theorem newKey_scalar_not_derived_from_data :
    (NewKey "pw" (List.replicate 32 7) 1).data = (NewKey "pw" (List.replicate 32 7) 2).data ∧
    (NewKey "pw" (List.replicate 32 7) 1).kyberSecretKey
      ≠ (NewKey "pw" (List.replicate 32 7) 2).kyberSecretKey := by
  refine ⟨rfl, ?_⟩
  show some (1 : GroupScalar) ≠ some (2 : GroupScalar)
  intro h
  have h12 : (1 : GroupScalar) = 2 := Option.some.inj h
  have := congrArg ZMod.val h12
  rw [ZMod.val_one_eq_one_mod] at this
  revert this
  decide

/-- C3 amended: `NewKey` computes `data = PBKDF2(password, salt, 100000,
32)` and pairs it with the *randomly picked* scalar (and `P = s·G`); the
deterministic derivation of the scalar from the key bytes
(`SetBytes(data)` reduced mod the group order) is performed by
`DeriveKey`, not by `NewKey`. -/
theorem newKey_random_scalar_deriveKey_deterministic (password : String)
    (saltRand : List Nat) (scalarRand : GroupScalar) :
    (NewKey password saltRand scalarRand).data
      = pbkdf2Key (strBytes password) saltRand PBKDF2Iterations KeySize ∧
    (NewKey password saltRand scalarRand).salt = saltRand ∧
    (NewKey password saltRand scalarRand).kyberSecretKey = some scalarRand ∧
    (NewKey password saltRand scalarRand).kyberPublicKey = some (mulBase scalarRand) ∧
    (DeriveKey password saltRand).data
      = pbkdf2Key (strBytes password) saltRand PBKDF2Iterations KeySize ∧
    (DeriveKey password saltRand).kyberSecretKey
      = some (scalarSetBytes ((DeriveKey password saltRand).data)) ∧
    (DeriveKey password saltRand).kyberPublicKey
      = some (mulBase (scalarSetBytes ((DeriveKey password saltRand).data))) :=
  ⟨rfl, rfl, rfl, rfl, rfl, rfl, rfl⟩

instance {ε α : Type} [DecidableEq ε] [DecidableEq α] : DecidableEq (Except ε α)
  | .error e, .error f =>
      if h : e = f then isTrue (by rw [h]) else isFalse (fun c => h (Except.error.inj c))
  | .error _, .ok _ => isFalse (fun c => Except.noConfusion c)
  | .ok _, .error _ => isFalse (fun c => Except.noConfusion c)
  | .ok a, .ok b =>
      if h : a = b then isTrue (by rw [h]) else isFalse (fun c => h (Except.ok.inj c))

/-! ## Concrete fixtures (the spec's §8 scenario data) -/

/-- Schema `{id: int64 not null, name: utf8, score: float64}`. -/
def demoSchema : Schema :=
  [⟨"id", .int64, false⟩, ⟨"name", .utf8, true⟩, ⟨"score", .float64, true⟩]

/-- Rows `(1,"alice",10), (2,"bob",55), (3,"carol",30)`. -/
def demoCols : List Column :=
  [[.vInt 1, .vInt 2, .vInt 3], [.vStr "alice", .vStr "bob", .vStr "carol"],
   [.vFloat 10, .vFloat 55, .vFloat 30]]

/-- The three-row demo batch. -/
def demoRec : Rec := ⟨demoSchema, demoCols, 3⟩

/-- Concrete master-salt randomness. -/
def demoSalt : List Nat := List.replicate 32 7

/-- Concrete per-column randomness stream (ephemeral scalar, 12-byte nonce). -/
def demoRand : Nat → GroupScalar × List Nat :=
  fun i => (((5 + i : Nat) : GroupScalar), List.replicate 12 (i + 1))

/-- The spec's scenario password. -/
def demoPassword : String := "test_password_123"

/-- The freshly created demo file. -/
def demoCreated : LockboxFile :=
  match FormatCreate demoSchema demoPassword demoSalt 3 with
  | .ok f => f
  | .error _ => ⟨[], ⟨[], [], [], []⟩, false⟩

/-- The demo file after writing the three-row batch. -/
def demoFile : LockboxFile :=
  (match demoCreated.NewWriter demoPassword with
   | .ok w => w.WriteRecord demoRec demoRand
   | .error e => (demoCreated, some e)).1

/-- C8: the repository's own test `TestQueryAggregate` expects
`SELECT COUNT(*), AVG(score) FROM data` over the three-row demo batch to
return one row (`count = 3` as int64, `avg ∈ [31.6, 31.7]` as float64),
but the query engine has no aggregate support: the parser treats
`count(*)` and `avg(score)` as plain column names, `ReadColumns` then
selects no columns, and `applyQuery` panics indexing
`FieldIndices("count(*)")[0]` into an empty slice — no aggregate row is
ever produced. -/
theorem aggregate_query_panics :
    (parseQuery "SELECT COUNT(*), AVG(score) FROM data").map ParsedQuery.selectCols
      = some ["count(*)", "avg(score)"] ∧
    LockboxQuery demoFile demoPassword "SELECT COUNT(*), AVG(score) FROM data"
      = .panicked := by
  constructor
  · decide
  · decide

/-- C6 counterexample: a projection naming a column that is not a field
of the file's schema does *not* make the read fail — `ReadColumns`
silently ignores the unknown name and returns an empty (zero-column,
zero-row) record. -/
theorem readColumns_unknown_name_no_error :
    (demoFile.NewReader demoPassword).ReadColumns ["bogus"]
      = .ok ⟨[], [], 0⟩ := by decide

/-- The target-field list in the spec's vocabulary: all schema fields for
an empty projection, otherwise the schema fields named in the projection
(in schema order), unknown names ignored. -/
def specTargetFields (schema : Schema) (columns : List String) : Schema :=
  if columns = [] then schema else schema.filter fun f => columns.contains f.name

/-- C6 amended: if the projection is empty, all schema fields are
targeted; otherwise the targeted fields are exactly the schema fields
whose names appear in the projection, and projection names matching no
schema field are silently ignored rather than causing an error — in
particular a non-empty projection of only unknown names yields a
successful empty read. -/
theorem readColumns_projection_selection (r : Format.Reader) (columns : List String) :
    (∀ rec, r.ReadColumns columns = .ok rec →
      rec.schema = specTargetFields r.file.meta.schema columns) ∧
    (columns ≠ [] → (∀ f ∈ r.file.meta.schema, ¬ (columns.contains f.name = true)) →
      r.ReadColumns columns = .ok ⟨[], [], 0⟩) := by
  have hsel : (r.file.meta.schema.filter fun f => columns.isEmpty || columns.contains f.name)
      = specTargetFields r.file.meta.schema columns := by
    unfold specTargetFields
    cases columns with
    | nil => simp
    | cons c cs => simp
  constructor
  · intro rec hrec
    unfold Format.Reader.ReadColumns at hrec
    rw [hsel] at hrec
    simp only [] at hrec
    split at hrec
    · cases hrec
    · split at hrec
      · cases hrec
      · cases hrec
        rfl
  · intro hne hunk
    have h1 : columns.isEmpty = false := by
      cases columns with
      | nil => exact absurd rfl hne
      | cons c cs => rfl
    have hempty : (r.file.meta.schema.filter fun f =>
        columns.isEmpty || columns.contains f.name) = [] := by
      rw [List.filter_eq_nil_iff]
      intro f hf
      rw [h1]
      simp only [Bool.false_or]
      exact hunk f hf
    unfold Format.Reader.ReadColumns
    rw [hempty]
    rfl

/-- Witness for C6 amended at a concrete reader and projection. -/
theorem readColumns_projection_selection_witness :
    (demoFile.NewReader demoPassword).ReadColumns ["zzz", "yyy"] = .ok ⟨[], [], 0⟩ :=
  (readColumns_projection_selection (demoFile.NewReader demoPassword) ["zzz", "yyy"]).2
    (by decide) (by decide)

/-- C4: if any column of the parallel phase fails (its result slot holds
an error and every earlier slot holds a success), `WriteRecord` returns
that first error in column order and the file state is unchanged: no
block bytes appended, no directory entry added, no trailer rewrite. -/
theorem writeRecord_first_error_no_append (w : Format.Writer) (rec : Rec)
    (rand : Nat → GroupScalar × List Nat) (i : Nat) (e : LbError)
    (hi : (writeResults w rec rand)[i]? = some (.error e))
    (hprev : ∀ j, j < i → ∃ r, (writeResults w rec rand)[j]? = some (.ok r)) :
    w.WriteRecord rec rand = (w.file, some e) := by
  have hfe : firstErr (writeResults w rec rand) = some e :=
    firstErr_of_getElem _ i e hi hprev
  unfold Format.Writer.WriteRecord
  simp only []
  rw [hfe]

/-- The demo writer used to exhibit a failing parallel phase. -/
def c4Writer : Format.Writer :=
  match demoCreated.NewWriter demoPassword with
  | .ok w => w
  | .error _ => ⟨demoCreated, fun _ => none, []⟩

/-- A record whose second field is not in the file's schema, so its
column has no encryptor. -/
def c4Rec : Rec := ⟨[⟨"id", .int64, false⟩, ⟨"ghost", .int64, false⟩],
  [[.vInt 1], [.vInt 2]], 1⟩

/-- Witness for C4: the second column fails (`no encryptor`), the first
succeeds, and `WriteRecord` returns that error with the state unchanged. -/
theorem writeRecord_first_error_no_append_witness :
    c4Writer.WriteRecord c4Rec demoRand = (c4Writer.file, some (.noEncryptor "ghost")) :=
  writeRecord_first_error_no_append c4Writer c4Rec demoRand 1 (.noEncryptor "ghost")
    (by decide)
    (by intro j hj
        have hj0 : j = 0 := by omega
        subst hj0
        exact ⟨_, rfl⟩)

/-! ## Tamper detection (C5) -/

/-- A single-byte overwrite leaves every read of a region not containing
the position unchanged. -/
theorem readAt_set_disjoint (l : List Nat) (p v off len : Nat)
    (h : p < off ∨ off + len ≤ p) :
    readAt (l.set p v) off len = readAt l off len := by
  unfold readAt
  rw [List.length_set]
  by_cases hin : off + len ≤ l.length
  · rw [if_pos hin, if_pos hin]
    congr 1
    apply List.ext_getElem
    · simp
    · intro i h1 h2
      simp only [List.getElem_take, List.getElem_drop]
      have hip : p ≠ off + i := by
        simp only [List.length_take, List.length_drop, List.length_set] at h1
        omega
      exact List.getElem_set_ne hip _
  · rw [if_neg hin, if_neg hin]

/-- A successful `ValidateBlocks` walk means every directory block reads
back with a matching checksum. -/
theorem validateLoop_none_mem (bytes : List Nat) (blocks : List BlockInfo)
    (h : validateLoop bytes blocks = none) :
    ∀ b ∈ blocks, ∃ data, readAt bytes b.offset b.length = some data ∧
      sha256 data = b.checksum := by
  induction blocks with
  | nil => intro b hb; cases hb
  | cons x rest ih =>
      intro b hb
      unfold validateLoop at h
      split at h
      · cases h
      · rename_i data hdata
        split at h
        · cases h
        · rename_i hsum
          cases hb with
          | head => exact ⟨data, hdata, by simpa using hsum⟩
          | tail _ hmem => exact ih h b hmem

/-- In a file where one block's bytes no longer hash to its checksum and
every other block reads back unchanged and valid, the validate walk stops
at the damaged block and names its column. -/
theorem validateLoop_tamper (bytes tb : List Nat) (blocks : List BlockInfo) (b : BlockInfo)
    (hmem : b ∈ blocks)
    (horig : validateLoop bytes blocks = none)
    (hsame : ∀ b' ∈ blocks, b' ≠ b →
      readAt tb b'.offset b'.length = readAt bytes b'.offset b'.length)
    (hlen : tb.length = bytes.length)
    (hfail : sha256 ((tb.drop b.offset).take b.length) ≠ b.checksum) :
    validateLoop tb blocks = some (.corruptedBlock b.columnName) := by
  induction blocks with
  | nil => cases hmem
  | cons x rest ih =>
      have hx := validateLoop_none_mem bytes (x :: rest) horig x (List.mem_cons_self x rest)
      obtain ⟨dx, hdx, hsumx⟩ := hx
      have hrest : validateLoop bytes rest = none := by
        unfold validateLoop at horig
        rw [hdx] at horig
        simp only [hsumx, ne_eq, not_true_eq_false, if_false] at horig
        exact horig
      by_cases hxb : x = b
      · subst hxb
        have hbound : x.offset + x.length ≤ tb.length := by
          rw [hlen]
          unfold readAt at hdx
          split at hdx
          · assumption
          · cases hdx
        have hread : readAt tb x.offset x.length
            = some ((tb.drop x.offset).take x.length) := by
          unfold readAt
          rw [if_pos hbound]
        unfold validateLoop
        rw [hread]
        show (if sha256 ((tb.drop x.offset).take x.length) ≠ x.checksum
            then some (LbError.corruptedBlock x.columnName)
            else validateLoop tb rest)
          = some (LbError.corruptedBlock x.columnName)
        rw [if_pos hfail]
      · have hmem2 : b ∈ rest := by
          cases hmem with
          | head => exact absurd rfl hxb
          | tail _ hm => exact hm
        unfold validateLoop
        rw [hsame x (List.mem_cons_self x rest) hxb, hdx]
        show (if sha256 dx ≠ x.checksum
            then some (LbError.corruptedBlock x.columnName)
            else validateLoop tb rest)
          = some (LbError.corruptedBlock b.columnName)
        rw [if_neg (by simp [hsumx])]
        exact ih hmem2 hrest (fun b' hb' hne => hsame b' (List.mem_cons_of_mem x hb') hne)

/-- Block lookup over fields that all share one column name resolves each
to the directory's first block of that name. -/
theorem lookupBlocks_const (blocks : List BlockInfo) (fields : List ArrowField)
    (name : String) (b : BlockInfo)
    (hall : ∀ f ∈ fields, f.name = name)
    (hfind : findBlock blocks name = some b) :
    lookupBlocks blocks fields = .ok (fields.map fun f => (f, b)) := by
  induction fields with
  | nil => rfl
  | cons f fs ih =>
      unfold lookupBlocks
      rw [hall f (List.mem_cons_self f fs), hfind,
        ih (fun g hg => hall g (List.mem_cons_of_mem f hg))]
      rfl

/-- A projected read of a single column whose first directory block fails
its checksum returns the corruption error naming that column. -/
theorem readColumns_single_corrupted (r : Format.Reader) (b : BlockInfo)
    (hfield : ∃ f ∈ r.file.meta.schema, f.name = b.columnName)
    (hfind : findBlock r.file.meta.blockInfo b.columnName = some b)
    (hread : readAt r.file.fileBytes b.offset b.length
      = some ((r.file.fileBytes.drop b.offset).take b.length))
    (hfail : sha256 ((r.file.fileBytes.drop b.offset).take b.length) ≠ b.checksum) :
    r.ReadColumns [b.columnName] = .error (.corruptedBlock b.columnName) := by
  unfold Format.Reader.ReadColumns
  have hselname : ∀ f ∈ (r.file.meta.schema.filter fun f =>
      [b.columnName].isEmpty || [b.columnName].contains f.name), f.name = b.columnName := by
    intro f hf
    have := List.of_mem_filter hf
    simpa using this
  simp only []
  rw [lookupBlocks_const r.file.meta.blockInfo _ b.columnName b hselname hfind]
  obtain ⟨f0, hf0mem, hf0name⟩ := hfield
  have hf0sel : f0 ∈ (r.file.meta.schema.filter fun f =>
      [b.columnName].isEmpty || [b.columnName].contains f.name) := by
    apply List.mem_filter_of_mem hf0mem
    simp [hf0name]
  have hcorr : ∀ f ∈ (r.file.meta.schema.filter fun f =>
      [b.columnName].isEmpty || [b.columnName].contains f.name),
      readColumn r f b = .error (.corruptedBlock b.columnName) := by
    intro f hf
    unfold readColumn
    rw [hread]
    show (if sha256 ((r.file.fileBytes.drop b.offset).take b.length) ≠ b.checksum
        then Except.error (LbError.corruptedBlock f.name) else _)
      = Except.error (LbError.corruptedBlock b.columnName)
    rw [if_pos hfail, hselname f hf]
  cases hsel : (r.file.meta.schema.filter fun f =>
      [b.columnName].isEmpty || [b.columnName].contains f.name) with
  | nil => rw [hsel] at hf0sel; cases hf0sel
  | cons g gs =>
      show (match firstErr (((g :: gs).map fun f => (f, b)).map
          fun p => readColumn r p.1 p.2) with
        | some e => Except.error e
        | none => _) = Except.error (LbError.corruptedBlock b.columnName)
      rw [List.map_map]
      show (match firstErr (readColumn r g b :: (gs.map fun f => readColumn r f b)) with
        | some e => Except.error e
        | none => _) = _
      rw [hcorr g (by rw [hsel]; exact List.mem_cons_self g gs)]
      rfl

/-- C5: after a state in which every directory block validates, flipping
one byte inside a block `b` (the first directory block of its column,
with every other block's region not containing the flipped position, and
the new bytes no longer hashing to the stored checksum — the SHA-256
collision-freedom contract instantiated at this input) makes
`ValidateBlocks` return the corruption error naming `b`'s column, and
makes a read covering that column return the same corruption error
instead of data. -/
theorem tamper_detected_validate_and_read (lbf : LockboxFile) (password : String)
    (p v : Nat) (b : BlockInfo)
    (hmem : b ∈ lbf.meta.blockInfo)
    (hvalid : lbf.ValidateBlocks = none)
    (hdisj : ∀ b2 ∈ lbf.meta.blockInfo, b2 ≠ b → p < b2.offset ∨ b2.offset + b2.length ≤ p)
    (hflip : sha256 (((lbf.fileBytes.set p v).drop b.offset).take b.length) ≠ b.checksum)
    (hfield : ∃ f ∈ lbf.meta.schema, f.name = b.columnName)
    (hfind : findBlock lbf.meta.blockInfo b.columnName = some b) :
    LockboxFile.ValidateBlocks { lbf with fileBytes := lbf.fileBytes.set p v }
      = some (.corruptedBlock b.columnName) ∧
    (LockboxFile.NewReader { lbf with fileBytes := lbf.fileBytes.set p v }
      password).ReadColumns [b.columnName] = .error (.corruptedBlock b.columnName) := by
  have hsame : ∀ b2 ∈ lbf.meta.blockInfo, b2 ≠ b →
      readAt (lbf.fileBytes.set p v) b2.offset b2.length
        = readAt lbf.fileBytes b2.offset b2.length := by
    intro b2 hb2 hne
    exact readAt_set_disjoint _ p v _ _ (hdisj b2 hb2 hne)
  have hlen : (lbf.fileBytes.set p v).length = lbf.fileBytes.length := List.length_set ..
  have hval := validateLoop_tamper lbf.fileBytes (lbf.fileBytes.set p v)
    lbf.meta.blockInfo b hmem hvalid hsame hlen hflip
  have hbbound : b.offset + b.length ≤ (lbf.fileBytes.set p v).length := by
    obtain ⟨d, hd, _⟩ := validateLoop_none_mem lbf.fileBytes lbf.meta.blockInfo hvalid b hmem
    rw [hlen]
    unfold readAt at hd
    split at hd
    · assumption
    · cases hd
  have hreadt : readAt (lbf.fileBytes.set p v) b.offset b.length
      = some (((lbf.fileBytes.set p v).drop b.offset).take b.length) := by
    unfold readAt
    rw [if_pos hbbound]
  exact ⟨hval, readColumns_single_corrupted _ b hfield hfind hreadt hflip⟩

/-- The first-written block of the demo file (the `id` column). -/
def demoBlock0 : BlockInfo := demoFile.meta.blockInfo.headD default

set_option maxRecDepth 40000 in
/-- Witness for C5: flip the first byte of the demo file's `id` block. -/
theorem tamper_detected_validate_and_read_witness :
    LockboxFile.ValidateBlocks { demoFile with
      fileBytes := demoFile.fileBytes.set demoBlock0.offset 99 }
      = some (.corruptedBlock demoBlock0.columnName) ∧
    (LockboxFile.NewReader { demoFile with
      fileBytes := demoFile.fileBytes.set demoBlock0.offset 99 }
      demoPassword).ReadColumns [demoBlock0.columnName]
      = .error (.corruptedBlock demoBlock0.columnName) :=
  tamper_detected_validate_and_read demoFile demoPassword demoBlock0.offset 99 demoBlock0
    (by decide) (by decide) (by decide) (by decide) (by decide) (by decide)

/-! ## Repair idempotence (C9) -/

theorem blockOk_eq_true (bytes : List Nat) (b : BlockInfo) :
    blockOk bytes b = true ↔
      ∃ data, readAt bytes b.offset b.length = some data ∧ sha256 data = b.checksum := by
  unfold blockOk
  cases h : readAt bytes b.offset b.length with
  | none => simp
  | some data => simp [h]

/-- Every block satisfying the per-block test validates. -/
theorem validateLoop_none_of_all (bytes : List Nat) (blocks : List BlockInfo)
    (h : ∀ b ∈ blocks, blockOk bytes b = true) :
    validateLoop bytes blocks = none := by
  induction blocks with
  | nil => rfl
  | cons x rest ih =>
      obtain ⟨d, hd, hs⟩ := (blockOk_eq_true bytes x).mp (h x (List.mem_cons_self x rest))
      unfold validateLoop
      rw [hd]
      show (if sha256 d ≠ x.checksum then some (LbError.corruptedBlock x.columnName)
        else validateLoop bytes rest) = none
      rw [if_neg (by simp [hs])]
      exact ih fun b hb => h b (List.mem_cons_of_mem x hb)

/-- The trailer rewrite (`updateMetadata`'s append plus offset-slot
overwrite) leaves every read below byte 20 or at byte 28 and beyond,
within the old file, unchanged. -/
theorem readAt_updateBytes (bytes T W : List Nat) (off len : Nat)
    (hW : W.length = 8)
    (hlen : 28 ≤ bytes.length)
    (hbound : off + len ≤ bytes.length)
    (hdisj : off + len ≤ 20 ∨ 28 ≤ off) :
    readAt (writeAt (bytes ++ T) 20 W) off len = readAt bytes off len := by
  rw [readAt_writeAt_disjoint]
  · exact readAt_append_left bytes T off len hbound
  · rw [hW]
    simp only [List.length_append]
    omega
  · rw [hW]
    omega

/-- C9 amended: for every file state of at least header size whose
directory blocks do not overlap the header's metadata-offset slot
(bytes 20–28) — true of every file the writer produces, where blocks
start at or after byte 28 — `repair()` succeeds, `validate()` succeeds
immediately after it, and a second `repair()` removes no further entries:
it leaves the block directory identical to the first repair's. -/
theorem repair_idempotent_disjoint_blocks (lbf : LockboxFile)
    (hro : lbf.readonly = false)
    (hlen : 28 ≤ lbf.fileBytes.length)
    (hdisj : ∀ b ∈ lbf.meta.blockInfo, b.offset + b.length ≤ 20 ∨ 28 ≤ b.offset) :
    ∃ s1, lbf.Repair = .ok s1 ∧ s1.ValidateBlocks = none ∧
      ∃ s2, s1.Repair = .ok s2 ∧ s2.meta.blockInfo = s1.meta.blockInfo := by
  unfold LockboxFile.Repair LockboxFile.updateMetadata
  rw [hro]
  simp only [if_false, Bool.false_eq_true]
  refine ⟨_, rfl, ?_, ?_⟩
  all_goals
    set valid := lbf.meta.blockInfo.filter (blockOk lbf.fileBytes) with hvalid
  · -- validate succeeds on the rewritten state
    show validateLoop _ valid = none
    apply validateLoop_none_of_all
    intro b hb
    have hok : blockOk lbf.fileBytes b = true := List.of_mem_filter hb
    have hmem : b ∈ lbf.meta.blockInfo := List.mem_of_mem_filter hb
    obtain ⟨d, hd, hs⟩ := (blockOk_eq_true _ _).mp hok
    have hbound : b.offset + b.length ≤ lbf.fileBytes.length := by
      unfold readAt at hd
      split at hd
      · assumption
      · cases hd
    rw [blockOk_eq_true]
    refine ⟨d, ?_, hs⟩
    rw [readAt_updateBytes _ _ _ _ _ (toLE_length 8 _) hlen hbound (hdisj b hmem)]
    exact hd
  · -- second repair keeps the directory unchanged
    refine ⟨_, rfl, ?_⟩
    show valid.filter _ = valid
    rw [List.filter_eq_self]
    intro b hb
    have hok : blockOk lbf.fileBytes b = true := List.of_mem_filter hb
    have hmem : b ∈ lbf.meta.blockInfo := List.mem_of_mem_filter hb
    obtain ⟨d, hd, hs⟩ := (blockOk_eq_true _ _).mp hok
    have hbound : b.offset + b.length ≤ lbf.fileBytes.length := by
      unfold readAt at hd
      split at hd
      · assumption
      · cases hd
    rw [blockOk_eq_true]
    refine ⟨d, ?_, hs⟩
    rw [readAt_updateBytes _ _ _ _ _ (toLE_length 8 _) hlen hbound (hdisj b hmem)]
    exact hd

/-- An adversarial file state: a directory block covering the header's
metadata-offset slot (offset 20, length 8), with a checksum matching the
slot's current bytes (`toLE 8 5`). -/
def c9State : LockboxFile :=
  { fileBytes := headerBytes 5
    meta := { schema := [], masterSalt := []
              blockInfo := [⟨"x", 20, 8, 0, false, sha256 (toLE 8 5)⟩]
              accessLog := [] }
    readonly := false }

/-- C9 counterexample: on this file state, `repair()` keeps the block
(its checksum matches) but rewrites the metadata-offset slot the block
covers, so the immediately following `validate()` reports corruption —
and the second `repair()` is not a no-op: it removes the entry, leaving a
different directory. -/
theorem repair_validate_fails_on_slot_overlap :
    (c9State.Repair).map (fun s => s.ValidateBlocks)
      = .ok (some (.corruptedBlock "x")) ∧
    (c9State.Repair).map (fun s => s.meta.blockInfo.length) = .ok 1 ∧
    (c9State.Repair).map (fun s => (s.Repair).map fun t => t.meta.blockInfo.length)
      = .ok (.ok 0) := by
  exact ⟨by decide, by decide, by decide⟩

set_option maxRecDepth 40000 in
/-- Witness for C9 amended at the written demo file (all of whose blocks
start after the header). -/
theorem repair_idempotent_disjoint_blocks_witness :
    ∃ s1, demoFile.Repair = .ok s1 ∧ s1.ValidateBlocks = none ∧
      ∃ s2, s1.Repair = .ok s2 ∧ s2.meta.blockInfo = s1.meta.blockInfo :=
  repair_idempotent_disjoint_blocks demoFile (by decide) (by decide) (by decide)

/-! ## Query predicate refinement (C7) -/

/-- The spec's literal treatment: strip surrounding single or double
quotes. -/
def stripQuotes (lit : String) : String := trimCutset lit ['\'', '"']

/-- The spec's numeric comparison, for `op` among `=`, `<`, `>`, `<=`,
`>=` (anything else holds of no row). -/
def specCompare (op : String) (a b : ℚ) : Bool :=
  if op = "=" then decide (a = b)
  else if op = "<" then decide (a < b)
  else if op = ">" then decide (a > b)
  else if op = "<=" then decide (a ≤ b)
  else if op = ">=" then decide (a ≥ b)
  else false

/-- The amended claim's row predicate: numeric cells coerce both sides to
float64 (the literal via `ParseFloat`; an unparsable literal matches
nothing); string cells support `=` only, against the literal with
surrounding quotes stripped; a null cell behaves as the sentinel string
`"NULL"`, satisfying only `=` against a literal that strips to `NULL`. -/
def specWhereMatches (cell : CellVal) (op lit : String) : Bool :=
  match cell with
  | .vInt i =>
      match goParseFloat lit with
      | some q => specCompare op (i : ℚ) q
      | none => false
  | .vFloat x =>
      match goParseFloat lit with
      | some q => specCompare op x q
      | none => false
  | .vStr s => decide (op = "=" ∧ s = stripQuotes lit)
  | .vNull => decide (op = "=" ∧ "NULL" = stripQuotes lit)

/-- The null-to-zero materialization the builders perform. -/
def specZeroFill (t : ColType) (cell : CellVal) : CellVal :=
  match cell with
  | .vNull =>
      match t with
      | .int64 => .vInt 0
      | .float64 => .vFloat 0
      | .utf8 => .vStr ""
  | c => c

/-- The amended claim's result of `SELECT * FROM data WHERE c op lit`
over the record the read pipeline delivered: keep exactly the rows
satisfying the predicate on the WHERE column (index `iw`), and for every
field of the record output the kept cells with nulls materialized as the
type's zero value. -/
def specSelectStarWhere (rec : Rec) (op lit : String) (iw : Nat) : Rec :=
  let keep := (List.range rec.numRows).filter fun r =>
    specWhereMatches ((rec.cols.getD iw []).getD r .vNull) op lit
  { schema := rec.schema
    cols := (rec.schema.zip rec.cols).map fun p =>
      keep.map fun r => specZeroFill p.1.type (p.2.getD r .vNull)
    numRows := keep.length }

theorem specCompare_eq_chain (op : String) (a b : ℚ) :
    (if op = ">" then decide (a > b)
     else if op = "<" then decide (a < b)
     else if op = "=" then decide (a = b)
     else if op = ">=" then decide (a ≥ b)
     else if op = "<=" then decide (a ≤ b)
     else false) = specCompare op a b := by
  unfold specCompare
  by_cases h1 : op = "="
  · subst h1
    rw [if_neg (by decide), if_neg (by decide), if_pos rfl, if_pos rfl]
  · by_cases h2 : op = "<"
    · subst h2
      rw [if_neg (by decide), if_pos rfl, if_neg (by decide), if_pos rfl]
    · by_cases h3 : op = ">"
      · subst h3
        rw [if_pos rfl, if_neg (by decide), if_neg (by decide), if_pos rfl]
      · by_cases h4 : op = "<="
        · subst h4
          rw [if_neg (by decide), if_neg (by decide), if_neg (by decide),
            if_neg (by decide), if_pos rfl, if_neg (by decide), if_neg (by decide),
            if_pos rfl, if_neg (by decide)]
        · by_cases h5 : op = ">="
          · subst h5
            rw [if_neg (by decide), if_neg (by decide), if_neg (by decide), if_pos rfl,
              if_neg (by decide), if_neg (by decide), if_neg (by decide), if_pos rfl,
              if_neg (by decide)]
          · rw [if_neg h3, if_neg h2, if_neg h1, if_neg h5, if_neg h4,
              if_neg h1, if_neg h2, if_neg h3, if_neg h4, if_neg h5]

/-- `matchValue` computes exactly the amended claim's predicate on the
cell at the row. -/
theorem matchValue_eq_spec (col : Column) (r : Nat) (op val : String) :
    matchValue col r op val = specWhereMatches (col.getD r .vNull) op val := by
  unfold matchValue specWhereMatches getValue
  cases hc : col.getD r .vNull with
  | vInt i =>
      cases hf : goParseFloat val with
      | none => rfl
      | some q => exact specCompare_eq_chain op (i : ℚ) q
  | vFloat x =>
      cases hf : goParseFloat val with
      | none => rfl
      | some q => exact specCompare_eq_chain op x q
  | vStr s =>
      show (if op = "=" then decide (s = trimCutset val ['\'', '"']) else false)
        = decide (op = "=" ∧ s = stripQuotes val)
      by_cases h : op = "="
      · subst h
        simp [stripQuotes]
      · simp [h]
  | vNull =>
      show (if op = "=" then decide ("NULL" = trimCutset val ['\'', '"']) else false)
        = decide (op = "=" ∧ "NULL" = stripQuotes val)
      by_cases h : op = "="
      · subst h
        simp [stripQuotes]
      · simp [h]

theorem appendValue_eq_specZeroFill (t : ColType) (col : Column) (r : Nat) :
    appendValue t col r = specZeroFill t (col.getD r .vNull) := by
  unfold appendValue specZeroFill
  cases col.getD r .vNull <;> rfl

theorem fieldIndicesAux_head (name : String) (schema : Schema) (k i : Nat)
    (f : ArrowField) (hf : schema[i]? = some f) (hname : f.name = name)
    (hnodup : (schema.map ArrowField.name).Nodup) :
    (fieldIndicesAux name schema k).head? = some (k + i) := by
  induction schema generalizing k i with
  | nil => simp at hf
  | cons g gs ih =>
      cases i with
      | zero =>
          simp only [List.getElem?_cons_zero, Option.some.injEq] at hf
          subst hf
          unfold fieldIndicesAux
          rw [if_pos hname]
          rfl
      | succ i =>
          simp only [List.getElem?_cons_succ] at hf
          have hmem : f ∈ gs := by
            have := List.getElem?_eq_some_iff.mp hf
            obtain ⟨hlt, hgetEq⟩ := this
            exact hgetEq ▸ List.getElem_mem hlt
          have hgname : ¬ (g.name = name) := by
            intro hg
            rw [List.map_cons, List.nodup_cons] at hnodup
            exact hnodup.1 (hg ▸ hname ▸ List.mem_map_of_mem ArrowField.name hmem)
          unfold fieldIndicesAux
          rw [if_neg hgname]
          have := ih (k + 1) i hf (by
            rw [List.map_cons, List.nodup_cons] at hnodup
            exact hnodup.2)
          rw [this]
          congr 1
          omega

/-- A `mapM` whose `i`-th element yields `some (g i)` succeeds with the
range image of `g`. -/
theorem mapM_eq_some_range {α β : Type} (xs : List α) (h : α → Option β) (g : Nat → β)
    (hx : ∀ i, i < xs.length → ∃ a, xs[i]? = some a ∧ h a = some (g i)) :
    xs.mapM h = some ((List.range xs.length).map g) := by
  induction xs generalizing g with
  | nil => rfl
  | cons x xs ih =>
      obtain ⟨a, ha, hha⟩ := hx 0 (Nat.succ_pos _)
      simp only [List.getElem?_cons_zero, Option.some.injEq] at ha
      subst ha
      have hrest := ih (fun i => g (i + 1)) (fun i hi => by
        obtain ⟨b, hb, hhb⟩ := hx (i + 1) (by simpa using Nat.succ_lt_succ hi)
        exact ⟨b, by simpa using hb, hhb⟩)
      rw [List.mapM_cons, hha, hrest]
      simp only [Option.pure_def, Option.bind_some, Option.some.injEq,
        List.length_cons]
      rw [List.range_succ_eq_map]
      simp [List.map_map, Function.comp]

theorem range_map_getD_zip {α β γ : Type} [Inhabited α] (as : List α) (bs : List β)
    (g : α → β → γ) (db : β) (hlen : bs.length = as.length) :
    (List.range as.length).map (fun i => g (as.getD i default) (bs.getD i db))
      = (as.zip bs).map fun p => g p.1 p.2 := by
  induction as generalizing bs g with
  | nil => rfl
  | cons a as ih =>
      cases bs with
      | nil => simp at hlen
      | cons b bs =>
          simp only [List.length_cons] at hlen ⊢
          rw [List.range_succ_eq_map, List.map_cons, List.map_map]
          have hbs : bs.length = as.length := by omega
          rw [List.zip_cons_cons, List.map_cons]
          congr 1
          have := ih bs (fun x y => g x y) hbs
          rw [← this]
          apply List.map_congr_left
          intro i hi
          rfl

theorem range_map_getD {α : Type} (l : List α) (d : α) :
    (List.range l.length).map (fun i => l.getD i d) = l := by
  induction l with
  | nil => rfl
  | cons a as ih =>
      simp only [List.length_cons]
      rw [List.range_succ_eq_map, List.map_cons, List.map_map]
      show a :: (List.range as.length).map (fun i => as.getD i d) = a :: as
      rw [ih]

/-- C7 amended: for every parsed query of shape `SELECT * FROM data WHERE
c op v` (empty select list, no ORDER BY, default LIMIT) over the record
the read pipeline delivered — whose schema contains the WHERE column,
first at index `iw` — `applyQuery` returns exactly the amended claim's
result: the rows kept are exactly those whose WHERE cell satisfies the
predicate (with the literal as uppercased by the parser, nulls behaving
as the sentinel string `"NULL"`), and each output column holds the kept
cells with nulls materialized as zero values. -/
theorem applyQuery_select_star_where_refines_spec (rec : Rec) (pq : ParsedQuery) (iw : Nat)
    (hsel : pq.selectCols = [])
    (horder : pq.orderCol = "")
    (hlimit : pq.limit = -1)
    (hwhere : pq.whereCol ≠ "")
    (hiw : (fieldIndices rec.schema pq.whereCol).head? = some iw)
    (hnodup : (rec.schema.map ArrowField.name).Nodup)
    (hlen : rec.cols.length = rec.schema.length) :
    applyQuery rec pq = some (specSelectStarWhere rec pq.whereOp pq.whereVal iw) := by
  have hkeep : (List.range rec.numRows).filter
        (fun r => matchValue (rec.cols.getD iw []) r pq.whereOp pq.whereVal)
      = (List.range rec.numRows).filter (fun r =>
          specWhereMatches ((rec.cols.getD iw []).getD r .vNull) pq.whereOp pq.whereVal) :=
    List.filter_congr fun r _ => matchValue_eq_spec _ r _ _
  unfold applyQuery
  simp only [hsel, horder, hlimit, hiw, hwhere, ne_eq, not_false_eq_true, if_true,
    not_true_eq_false, if_false, Option.some_bind, List.isEmpty_nil, hkeep]
  set keep := List.filter
    (fun r => specWhereMatches (List.getD (rec.cols.getD iw []) r CellVal.vNull)
      pq.whereOp pq.whereVal)
    (List.range rec.numRows) with hkdef
  have hneg : ¬((0:Int) ≤ -1 ∧ (-1:Int) < (keep.length : Int)) :=
    fun h => absurd h.1 (by decide)
  rw [if_neg hneg]
  have hbuilt : List.mapM (fun name =>
      Option.map (fun fIdx =>
        (List.getD rec.schema fIdx ⟨"", ColType.utf8, false⟩,
          List.map (fun row => appendValue
            (List.getD rec.schema fIdx ⟨"", ColType.utf8, false⟩).type
            (rec.cols.getD fIdx []) row) keep))
        (fieldIndices rec.schema name).head?)
      (List.map ArrowField.name rec.schema)
    = some ((List.range (List.map ArrowField.name rec.schema).length).map
        (fun i => (List.getD rec.schema i ⟨"", ColType.utf8, false⟩,
          List.map (fun row => appendValue
            (List.getD rec.schema i ⟨"", ColType.utf8, false⟩).type
            (rec.cols.getD i []) row) keep))) := by
    apply mapM_eq_some_range
    intro i hi
    rw [List.length_map] at hi
    refine ⟨(List.getD rec.schema i ⟨"", ColType.utf8, false⟩).name, ?_, ?_⟩
    · rw [List.getElem?_map, List.getElem?_eq_getElem hi]
      rw [List.getD_eq_getElem rec.schema _ hi]
      rfl
    · have hhead := fieldIndicesAux_head
        ((List.getD rec.schema i ⟨"", ColType.utf8, false⟩).name) rec.schema 0 i
        (List.getD rec.schema i ⟨"", ColType.utf8, false⟩)
        (by rw [List.getElem?_eq_getElem hi, List.getD_eq_getElem rec.schema _ hi])
        rfl hnodup
      unfold fieldIndices
      rw [hhead, Nat.zero_add]
      rfl
  rw [hbuilt]
  unfold specSelectStarWhere
  simp only [Option.map_some', Option.some.injEq, List.length_map]
  congr 1
  · show List.map Prod.fst ((List.range rec.schema.length).map _) = rec.schema
    rw [List.map_map]
    have : (Prod.fst ∘ fun i => (List.getD rec.schema i ⟨"", ColType.utf8, false⟩,
        List.map (fun row => appendValue
          (List.getD rec.schema i ⟨"", ColType.utf8, false⟩).type
          (rec.cols.getD i []) row) keep))
      = fun i => List.getD rec.schema i ⟨"", ColType.utf8, false⟩ := rfl
    rw [this]
    exact range_map_getD rec.schema ⟨"", ColType.utf8, false⟩
  · show List.map Prod.snd ((List.range rec.schema.length).map _) = _
    rw [List.map_map]
    have hcomp : (Prod.snd ∘ fun i => (List.getD rec.schema i ⟨"", ColType.utf8, false⟩,
        List.map (fun row => appendValue
          (List.getD rec.schema i ⟨"", ColType.utf8, false⟩).type
          (rec.cols.getD i []) row) keep))
      = fun i => List.map (fun row => appendValue
          (List.getD rec.schema i ⟨"", ColType.utf8, false⟩).type
          (rec.cols.getD i []) row) keep := rfl
    rw [hcomp]
    have := range_map_getD_zip rec.schema rec.cols
      (fun f c => List.map (fun row => specZeroFill f.type (List.getD c row .vNull)) keep)
      [] hlen
    rw [← this]
    apply List.map_congr_left
    intro i hi
    apply List.map_congr_left
    intro row hrow
    exact appendValue_eq_specZeroFill _ _ row

set_option maxRecDepth 40000 in
/-- C7 counterexample: the stored demo batch's row 0 has `name = "alice"`,
equal to the query literal `'alice'` after stripping quotes exactly as the
claim's coercion rules prescribe, yet
`SELECT * FROM data WHERE name = 'alice'` returns *zero* rows — the
parser uppercases the whole query, string literal included, so the
comparison is against `'ALICE'` — and the result record carries only the
WHERE column (`SELECT *` with a WHERE reads just the required columns),
not the full rows of the batch. -/
theorem query_where_literal_uppercased :
    stripQuotes "'alice'" = "alice" ∧
    (demoCols.getD 1 []).getD 0 .vNull = .vStr "alice" ∧
    LockboxQuery demoFile demoPassword "SELECT * FROM data WHERE name = 'alice'"
      = .ok ⟨[⟨"name", .utf8, true⟩], [[]], 0⟩ := by
  exact ⟨by decide, by decide, by decide⟩

/-- A one-column record as the read pipeline delivers it for
`SELECT * FROM data WHERE score > 20`. -/
def c7Rec : Rec := ⟨[⟨"score", .float64, true⟩],
  [[.vFloat 10, .vFloat 55, .vFloat 30]], 3⟩

/-- The parsed form of `SELECT * FROM data WHERE score > 20`. -/
def c7Pq : ParsedQuery := ⟨[], "score", ">", "20", "", false, -1⟩

/-- Witness for C7 amended at a concrete record and parsed query. -/
theorem applyQuery_select_star_where_refines_spec_witness :
    applyQuery c7Rec c7Pq = some (specSelectStarWhere c7Rec ">" "20" 0) :=
  applyQuery_select_star_where_refines_spec c7Rec c7Pq 0 rfl rfl rfl
    (by decide) (by decide) (by decide) (by decide)

/-! ## Round-trip (C1) -/

theorem headerBytes_length (n : Nat) : (headerBytes n).length = 28 := by
  simp [headerBytes, MagicBytes, toLE_length]

/-- The scalar every writer/reader encryptor carries: `SetBytes` of the
derived master key bytes. -/
def writerScalar (password : String) (salt : List Nat) : GroupScalar :=
  scalarSetBytes (DeriveKey password salt).data

/-- The column key the writer/reader derives for a column name. -/
def colKey (password : String) (salt : List Nat) (name : String) : List Nat :=
  DeriveColumnKey (DeriveKey password salt).data name salt

theorem NewColumnEncryptor_derived (masterKey : List Nat) (name : String) (salt : List Nat) :
    NewColumnEncryptor (DeriveColumnKey masterKey name salt)
      = some ⟨DeriveColumnKey masterKey name salt, none, none⟩ := by
  unfold NewColumnEncryptor
  rw [if_pos (show (DeriveColumnKey masterKey name salt).length = KeySize from
    pbkdf2Key_length _ _ _)]

theorem mkEncryptors_eq (password : String) (schema : Schema) (salt : List Nat)
    (name : String) (hname : name ∈ schema.map ArrowField.name) :
    mkEncryptors (DeriveKey password salt) schema salt name
      = some ⟨colKey password salt name,
          some (mulBase (writerScalar password salt)),
          some (writerScalar password salt)⟩ := by
  unfold mkEncryptors
  rw [if_pos (show ((schema.map ArrowField.name).contains name) = true by
    simpa using hname)]
  rw [NewColumnEncryptor_derived]
  rfl

/-- The envelope the writer produces for the element `p = (i, (f, col))`
of the enumerated column list. -/
def colEnv (password : String) (salt : List Nat) (rows : Nat)
    (rand : Nat → GroupScalar × List Nat) (p : Nat × (ArrowField × Column)) : List Nat :=
  encodePoint (mulBase (rand p.1).1) ++ (rand p.1).2 ++
    gcmSeal (hybridKey (colKey password salt p.2.1.name)
        (pointMul (writerScalar password salt) (mulBase (rand p.1).1)))
      (rand p.1).2 (ipcEncode1 p.2.1 p.2.2 rows)

/-- The parallel-phase result for `p`. -/
def colRes (password : String) (salt : List Nat) (rows : Nat)
    (rand : Nat → GroupScalar × List Nat) (p : Nat × (ArrowField × Column)) : ColResult :=
  ⟨p.2.1, colEnv password salt rows rand p, sha256 (colEnv password salt rows rand p)⟩

theorem processColumn_ok (password : String) (salt : List Nat) (schema : Schema)
    (w : Format.Writer) (rows : Nat) (rand : Nat → GroupScalar × List Nat)
    (p : Nat × (ArrowField × Column))
    (hw : w.encryptors = mkEncryptors (DeriveKey password salt) schema salt)
    (hmem : p.2.1.name ∈ schema.map ArrowField.name) :
    processColumn w rows p.2.1 p.2.2 (rand p.1)
      = .ok (colRes password salt rows rand p) := by
  unfold processColumn
  rw [hw, mkEncryptors_eq password schema salt p.2.1.name hmem]
  show (match ColumnEncryptor.Encrypt
      ⟨colKey password salt p.2.1.name, some (mulBase (writerScalar password salt)),
        some (writerScalar password salt)⟩
      (rand p.1).1 (rand p.1).2 (ipcEncode1 p.2.1 p.2.2 rows) with
    | none => Except.error (LbError.encryptFailed p.2.1.name)
    | some enc => Except.ok { field := p.2.1, data := enc, checksum := sha256 enc })
    = Except.ok (colRes password salt rows rand p)
  rw [encrypt_eq_parts _ (writerScalar password salt) _ _ _ rfl]
  rfl

/-- The directory entries the serial append phase of one write produces,
starting at file offset `start`. -/
def dirEntries (start rows : Nat) : List ColResult → List BlockInfo
  | [] => []
  | r :: rest => ⟨r.field.name, start, r.data.length, rows, false, r.checksum⟩
      :: dirEntries (start + r.data.length) rows rest

theorem appendBlocks_fileBytes (rows : Nat) (lbf : LockboxFile) (items : List ColResult) :
    (appendBlocks rows lbf items).fileBytes
      = lbf.fileBytes ++ (items.map ColResult.data).flatten := by
  induction items generalizing lbf with
  | nil => simp [appendBlocks]
  | cons r rest ih =>
      unfold appendBlocks
      rw [ih]
      simp [List.append_assoc]

theorem appendBlocks_meta (rows : Nat) (lbf : LockboxFile) (items : List ColResult) :
    (appendBlocks rows lbf items).meta.schema = lbf.meta.schema ∧
    (appendBlocks rows lbf items).meta.masterSalt = lbf.meta.masterSalt ∧
    (appendBlocks rows lbf items).readonly = lbf.readonly ∧
    (appendBlocks rows lbf items).meta.blockInfo
      = lbf.meta.blockInfo ++ dirEntries lbf.fileBytes.length rows items := by
  induction items generalizing lbf with
  | nil => simp [appendBlocks, dirEntries]
  | cons r rest ih =>
      unfold appendBlocks dirEntries
      obtain ⟨h1, h2, h3, h4⟩ := ih { lbf with
        fileBytes := lbf.fileBytes ++ r.data
        meta := lbf.meta.AddBlockInfo r.field.name lbf.fileBytes.length r.data.length rows r.checksum }
      refine ⟨h1, h2, h3, ?_⟩
      rw [h4]
      simp [Metadata.AddBlockInfo, List.append_assoc]

theorem dirEntries_length (start rows : Nat) (items : List ColResult) :
    (dirEntries start rows items).length = items.length := by
  induction items generalizing start with
  | nil => rfl
  | cons r rest ih => simp [dirEntries, ih]

theorem dirEntries_getElem? (start rows : Nat) (items : List ColResult) (i : Nat)
    (it : ColResult) (hit : items[i]? = some it) :
    ∃ off, start ≤ off ∧ (dirEntries start rows items)[i]?
      = some ⟨it.field.name, off, it.data.length, rows, false, it.checksum⟩ := by
  induction items generalizing start i with
  | nil => simp at hit
  | cons r rest ih =>
      cases i with
      | zero =>
          rw [List.getElem?_cons_zero, Option.some_inj] at hit
          subst hit
          refine ⟨start, le_refl _, ?_⟩
          rw [dirEntries, List.getElem?_cons_zero]
      | succ i =>
          rw [List.getElem?_cons_succ] at hit
          obtain ⟨off, hle, hoff⟩ := ih (start + r.data.length) i hit
          refine ⟨off, by omega, ?_⟩
          rw [dirEntries, List.getElem?_cons_succ]
          exact hoff

/-- Reading the `i`-th appended block out of the post-append bytes
returns exactly that block's payload. -/
theorem dirEntries_readAt (base : List Nat) (rows : Nat) (items : List ColResult)
    (i : Nat) (it : ColResult) (bi : BlockInfo)
    (hit : items[i]? = some it)
    (hbi : (dirEntries base.length rows items)[i]? = some bi) :
    readAt (base ++ (items.map ColResult.data).flatten) bi.offset bi.length
      = some it.data := by
  induction items generalizing base i with
  | nil => simp at hit
  | cons r rest ih =>
      cases i with
      | zero =>
          rw [List.getElem?_cons_zero, Option.some_inj] at hit
          rw [dirEntries, List.getElem?_cons_zero, Option.some_inj] at hbi
          subst hit
          subst hbi
          show readAt (base ++ (r.data ++ (rest.map ColResult.data).flatten))
            base.length r.data.length = some r.data
          rw [← List.append_assoc]
          rw [readAt_append_left _ _ _ _ (by simp)]
          exact readAt_append_right base r.data
      | succ i =>
          rw [List.getElem?_cons_succ] at hit
          rw [dirEntries, List.getElem?_cons_succ] at hbi
          have hlen2 : base.length + r.data.length = (base ++ r.data).length := by simp
          rw [hlen2] at hbi
          have := ih (base ++ r.data) i hit hbi
          show readAt (base ++ (r.data ++ (rest.map ColResult.data).flatten))
            bi.offset bi.length = some it.data
          rw [← List.append_assoc]
          exact this

theorem readAt_bound {f : List Nat} {off len : Nat} {r : List Nat}
    (h : readAt f off len = some r) : off + len ≤ f.length := by
  unfold readAt at h
  split at h
  · assumption
  · cases h

theorem dirEntries_names (start rows : Nat) (items : List ColResult) :
    (dirEntries start rows items).map BlockInfo.columnName
      = items.map fun r => r.field.name := by
  induction items generalizing start with
  | nil => rfl
  | cons r rest ih => rw [dirEntries, List.map_cons, List.map_cons, ih]

/-- In a directory with pairwise-distinct column names, the lookup loop
finds exactly the `i`-th entry when asked for its name. -/
theorem findBlock_nodup (blocks : List BlockInfo) (i : Nat) (bi : BlockInfo)
    (hk : blocks[i]? = some bi)
    (hnodup : (blocks.map BlockInfo.columnName).Nodup) :
    findBlock blocks bi.columnName = some bi := by
  induction blocks generalizing i with
  | nil => simp at hk
  | cons b rest ih =>
      cases i with
      | zero =>
          rw [List.getElem?_cons_zero, Option.some_inj] at hk
          subst hk
          unfold findBlock
          exact List.find?_cons_of_pos _ (by simp)
      | succ i =>
          rw [List.getElem?_cons_succ] at hk
          rw [List.map_cons, List.nodup_cons] at hnodup
          have hmem : bi ∈ rest := List.mem_iff_getElem?.mpr ⟨i, hk⟩
          have hne : b.columnName ≠ bi.columnName := fun he =>
            hnodup.1 (he ▸ List.mem_map_of_mem _ hmem)
          unfold findBlock
          rw [List.find?_cons_of_neg _ (by simp [hne])]
          exact ih i hk hnodup.2

/-- The sequential lookup succeeds and pairs field `i` with block `i`
whenever the per-index lookups do. -/
theorem lookupBlocks_zip (blocks : List BlockInfo) (fields : List ArrowField)
    (bis : List BlockInfo)
    (hlen : bis.length = fields.length)
    (h : ∀ (i : Nat) (f : ArrowField) (b : BlockInfo), fields[i]? = some f →
        bis[i]? = some b → findBlock blocks f.name = some b) :
    lookupBlocks blocks fields = .ok (fields.zip bis) := by
  induction fields generalizing bis with
  | nil => rfl
  | cons f fs ih =>
      cases bis with
      | nil => simp at hlen
      | cons b bs =>
          unfold lookupBlocks
          rw [h 0 f b (by simp) (by simp)]
          rw [ih bs (by simpa using hlen)
            (fun i f' b' hf hb => h (i+1) f' b' (by simpa using hf) (by simpa using hb))]
          rfl

/-- The parallel-phase results of one `WriteRecord`, in column order. -/
def writeItems (schema : Schema) (cols : List Column) (rows : Nat)
    (password : String) (saltRand : List Nat)
    (rand : Nat → GroupScalar × List Nat) : List ColResult :=
  (schema.zip cols).enum.map (colRes password saltRand rows rand)

/-- The file state `Create` produces: header with a zeroed offset slot,
the fresh metadata trailer appended, and the offset slot rewritten to the
header length. -/
def createdFile (schema : Schema) (saltRand : List Nat) : LockboxFile :=
  { fileBytes :=
      writeAt (headerBytes 0 ++
          (toLE 4 (NewMetadata schema saltRand).Serialize.length
            ++ (NewMetadata schema saltRand).Serialize))
        20 (toLE 8 (headerBytes 0).length)
    meta := NewMetadata schema saltRand
    readonly := false }

/-- The writer `NewWriter` returns on the freshly created file. -/
def createdWriter (schema : Schema) (password : String) (saltRand : List Nat) :
    Format.Writer :=
  { file := createdFile schema saltRand
    encryptors := mkEncryptors (DeriveKey password saltRand) schema saltRand
    masterKey := (DeriveKey password saltRand).data }

/-- The file state after the serial append phase of the first write. -/
def appendedFile (schema : Schema) (cols : List Column) (rows : Nat)
    (password : String) (saltRand : List Nat)
    (rand : Nat → GroupScalar × List Nat) : LockboxFile :=
  appendBlocks rows (createdFile schema saltRand)
    (writeItems schema cols rows password saltRand rand)

/-- The appended state after the write's audit-log entry. -/
def loggedFile (schema : Schema) (cols : List Column) (rows : Nat)
    (password : String) (saltRand : List Nat)
    (rand : Nat → GroupScalar × List Nat) : LockboxFile :=
  { appendedFile schema cols rows password saltRand rand with
    meta := (appendedFile schema cols rows password saltRand rand).meta.LogAccess
      "system" "write" "record" true ("wrote " ++ toString rows ++ " rows") }

/-- The final file state of the first write: the logged state with its
metadata trailer appended and the offset slot rewritten. -/
def writtenFile (schema : Schema) (cols : List Column) (rows : Nat)
    (password : String) (saltRand : List Nat)
    (rand : Nat → GroupScalar × List Nat) : LockboxFile :=
  { loggedFile schema cols rows password saltRand rand with
    fileBytes := writeAt
      ((loggedFile schema cols rows password saltRand rand).fileBytes ++
        (toLE 4 (loggedFile schema cols rows password saltRand rand).meta.Serialize.length ++
          (loggedFile schema cols rows password saltRand rand).meta.Serialize))
      20 (toLE 8 (loggedFile schema cols rows password saltRand rand).fileBytes.length) }

theorem loggedFile_readonly (schema : Schema) (cols : List Column) (rows : Nat)
    (password : String) (saltRand : List Nat) (rand : Nat → GroupScalar × List Nat) :
    (loggedFile schema cols rows password saltRand rand).readonly = false := by
  show (appendedFile schema cols rows password saltRand rand).readonly = false
  unfold appendedFile
  exact ((appendBlocks_meta rows (createdFile schema saltRand)
    (writeItems schema cols rows password saltRand rand)).2.2.1).trans rfl

theorem loggedFile_updateMetadata (schema : Schema) (cols : List Column) (rows : Nat)
    (password : String) (saltRand : List Nat) (rand : Nat → GroupScalar × List Nat) :
    (loggedFile schema cols rows password saltRand rand).updateMetadata
      = .ok (writtenFile schema cols rows password saltRand rand) := by
  unfold LockboxFile.updateMetadata
  rw [if_neg (show ¬((loggedFile schema cols rows password saltRand rand).readonly = true) by
    rw [loggedFile_readonly]; exact Bool.false_ne_true)]
  rfl

/-- The parallel phase of the first write succeeds on every column. -/
theorem writeResults_created (schema : Schema) (cols : List Column) (rows : Nat)
    (password : String) (saltRand : List Nat) (rand : Nat → GroupScalar × List Nat) :
    writeResults (createdWriter schema password saltRand) ⟨schema, cols, rows⟩ rand
      = (schema.zip cols).enum.map
        (fun p => Except.ok (colRes password saltRand rows rand p)) := by
  unfold writeResults
  show (schema.zip cols).enum.map
      (fun p => processColumn (createdWriter schema password saltRand) rows
        p.2.1 p.2.2 (rand p.1)) = _
  refine List.map_congr_left (fun p hp => ?_)
  obtain ⟨i, f, c⟩ := p
  have h2 : (f, c) ∈ schema.zip cols := by
    have := List.mem_map_of_mem Prod.snd hp
    rwa [List.enum_map_snd] at this
  exact processColumn_ok password saltRand schema _ rows rand (i, (f, c)) rfl
    (List.mem_map_of_mem ArrowField.name (List.of_mem_zip h2).1)

/-- The first write on a freshly created file succeeds and produces the
written state. -/
theorem writeRecord_created (schema : Schema) (cols : List Column) (rows : Nat)
    (password : String) (saltRand : List Nat) (rand : Nat → GroupScalar × List Nat) :
    (createdWriter schema password saltRand).WriteRecord ⟨schema, cols, rows⟩ rand
      = (writtenFile schema cols rows password saltRand rand, none) := by
  have hfe : firstErr (writeResults (createdWriter schema password saltRand)
      ⟨schema, cols, rows⟩ rand) = none := by
    rw [writeResults_created]; exact firstErr_map_ok _ _
  have hco : collectOk (writeResults (createdWriter schema password saltRand)
      ⟨schema, cols, rows⟩ rand)
      = (schema.zip cols).enum.map (colRes password saltRand rows rand) := by
    rw [writeResults_created]; exact collectOk_map_ok _ _
  unfold Format.Writer.WriteRecord
  simp only [hfe, hco]
  show (match (loggedFile schema cols rows password saltRand rand).updateMetadata with
    | .error e => (loggedFile schema cols rows password saltRand rand, some e)
    | .ok lbf2 => (lbf2, none))
    = (writtenFile schema cols rows password saltRand rand, none)
  rw [loggedFile_updateMetadata]

/-- One read-pipeline worker succeeds when the positional read, checksum,
encryptor lookup, decryption and deserialization all line up. -/
theorem readColumn_ok (r : Format.Reader) (f : ArrowField) (bi : BlockInfo)
    (ce : ColumnEncryptor) (data pt : List Nat) (col : Column) (rows : Nat)
    (hread : readAt r.file.fileBytes bi.offset bi.length = some data)
    (hcs : bi.checksum = sha256 data)
    (henc : r.encryptors f.name = some ce)
    (hdec : ce.Decrypt data = some pt)
    (hipc : ipcDecode1 pt = some (f, col, rows)) :
    readColumn r f bi = .ok col := by
  unfold readColumn
  rw [hread]
  show (if sha256 data ≠ bi.checksum then Except.error (LbError.corruptedBlock f.name)
    else match r.encryptors f.name with
      | none => Except.error (LbError.noEncryptor f.name)
      | some encryptor =>
          match encryptor.Decrypt data with
          | none => Except.error (LbError.decryptFailed f.name)
          | some dec =>
              match ipcDecode1 dec with
              | none => Except.error (LbError.deserializeFailed f.name)
              | some (_, c, _) => Except.ok c) = Except.ok col
  rw [hcs, if_neg (fun hh => hh rfl), henc]
  show (match ce.Decrypt data with
    | none => Except.error (LbError.decryptFailed f.name)
    | some dec =>
        match ipcDecode1 dec with
        | none => Except.error (LbError.deserializeFailed f.name)
        | some (_, c, _) => Except.ok c) = Except.ok col
  rw [hdec]
  show (match ipcDecode1 pt with
    | none => Except.error (LbError.deserializeFailed f.name)
    | some (_, c, _) => Except.ok c) = Except.ok col
  rw [hipc]

theorem writeItems_length (schema : Schema) (cols : List Column) (rows : Nat)
    (password : String) (saltRand : List Nat) (rand : Nat → GroupScalar × List Nat) :
    (writeItems schema cols rows password saltRand rand).length
      = (schema.zip cols).length := by
  unfold writeItems
  rw [List.length_map, List.enum_length]

theorem writeItems_getElem? (schema : Schema) (cols : List Column) (rows : Nat)
    (password : String) (saltRand : List Nat) (rand : Nat → GroupScalar × List Nat)
    (i : Nat) (hi : i < schema.length) (hic : i < cols.length) :
    (writeItems schema cols rows password saltRand rand)[i]?
      = some (colRes password saltRand rows rand (i, (schema[i], cols[i]))) := by
  have hiz : i < (schema.zip cols).length := by rw [List.length_zip]; omega
  have him : i < (writeItems schema cols rows password saltRand rand).length := by
    rw [writeItems_length]; exact hiz
  rw [List.getElem?_eq_getElem him]
  congr 1
  unfold writeItems
  rw [List.getElem_map, List.getElem_enum, List.getElem_zip]

theorem writeItems_names (schema : Schema) (cols : List Column) (rows : Nat)
    (password : String) (saltRand : List Nat) (rand : Nat → GroupScalar × List Nat)
    (hcols : cols.length = schema.length) :
    (writeItems schema cols rows password saltRand rand).map (fun r => r.field.name)
      = schema.map ArrowField.name := by
  unfold writeItems
  rw [List.map_map]
  show (schema.zip cols).enum.map (fun p => p.2.1.name) = _
  have h1 : (schema.zip cols).enum.map
      (fun p : Nat × (ArrowField × Column) => p.2.1.name)
      = ((schema.zip cols).enum.map Prod.snd).map (fun q => q.1.name) := by
    rw [List.map_map]; rfl
  rw [h1, List.enum_map_snd]
  have h2 : (schema.zip cols).map (fun q : ArrowField × Column => q.1.name)
      = ((schema.zip cols).map Prod.fst).map ArrowField.name := by
    rw [List.map_map]; rfl
  rw [h2, List.map_fst_zip schema cols hcols.symm.le]

/-- The per-column encryptor both the writer and the reader derive for a
column name (derived column key plus the master keypair). -/
def readerEnc (password : String) (saltRand : List Nat) (name : String) : ColumnEncryptor :=
  ⟨colKey password saltRand name, some (mulBase (writerScalar password saltRand)),
    some (writerScalar password saltRand)⟩

/-- The tail of the read pipeline: when the lookup pairs up and every
per-column read returns its column, `ReadRecord` returns the batch. -/
theorem readPipeline_ok (r : Format.Reader) (pairs : List (ArrowField × BlockInfo))
    (schema : Schema) (cols : List Column) (rows : Nat)
    (hlook : lookupBlocks r.file.meta.blockInfo r.file.meta.schema = .ok pairs)
    (hschema : r.file.meta.schema = schema)
    (hres : pairs.map (fun p => readColumn r p.1 p.2) = cols.map Except.ok)
    (hnum : (cols.headD []).length = rows) :
    r.ReadRecord = .ok ⟨schema, cols, rows⟩ := by
  unfold Format.Reader.ReadRecord
  rw [hlook]
  show (match firstErr (pairs.map fun p => readColumn r p.1 p.2) with
    | some e => Except.error e
    | none => Except.ok (Rec.mk r.file.meta.schema
        (collectOk (pairs.map fun p => readColumn r p.1 p.2))
        (((collectOk (pairs.map fun p => readColumn r p.1 p.2)).headD []).length)))
    = Except.ok ⟨schema, cols, rows⟩
  rw [hres]
  have hfe : firstErr (cols.map Except.ok) = (none : Option LbError) := by
    simpa using firstErr_map_ok cols (fun c => c)
  have hck : collectOk (cols.map Except.ok) = cols := by
    simpa using collectOk_map_ok cols (fun c => c)
  rw [hfe, hck]
  show Except.ok (Rec.mk r.file.meta.schema cols ((cols.headD []).length))
    = Except.ok ⟨schema, cols, rows⟩
  rw [hschema, hnum]

/-- A file state holding exactly the first write's block directory and
bytes (any metadata trailer `T` and 8-byte offset slot `W`) reads the
whole batch back, column by column. -/
theorem readRecord_of_written (lbf : LockboxFile) (schema : Schema) (cols : List Column)
    (rows : Nat) (password : String) (saltRand : List Nat)
    (rand : Nat → GroupScalar × List Nat) (C T W : List Nat)
    (hschema : lbf.meta.schema = schema)
    (hsalt : lbf.meta.masterSalt = saltRand)
    (hblocks : lbf.meta.blockInfo
      = dirEntries C.length rows (writeItems schema cols rows password saltRand rand))
    (hbytes : lbf.fileBytes = writeAt
      ((C ++ ((writeItems schema cols rows password saltRand rand).map ColResult.data).flatten)
        ++ T) 20 W)
    (hWl : W.length = 8)
    (hC : 28 ≤ C.length)
    (hnodup : (schema.map ArrowField.name).Nodup)
    (hcols : cols.length = schema.length)
    (hrows : ∀ c ∈ cols, c.length = rows)
    (hne : cols ≠ [])
    (hnonce : ∀ i, ((rand i).2).length = NonceSize) :
    (lbf.NewReader password).ReadRecord = .ok ⟨schema, cols, rows⟩ := by
  have hrf : (lbf.NewReader password).file = lbf := rfl
  have hre : (lbf.NewReader password).encryptors
      = mkEncryptors (DeriveKey password lbf.meta.masterSalt) lbf.meta.schema
          lbf.meta.masterSalt := rfl
  have hilen : (writeItems schema cols rows password saltRand rand).length
      = schema.length := by
    rw [writeItems_length, List.length_zip, hcols, min_self]
  have hdlen : (dirEntries C.length rows
      (writeItems schema cols rows password saltRand rand)).length = schema.length := by
    rw [dirEntries_length, hilen]
  have hnames : (dirEntries C.length rows
        (writeItems schema cols rows password saltRand rand)).map BlockInfo.columnName
      = schema.map ArrowField.name := by
    rw [dirEntries_names, writeItems_names schema cols rows password saltRand rand hcols]
  have hitem : ∀ (i : Nat) (hi : i < schema.length) (hic : i < cols.length),
      (writeItems schema cols rows password saltRand rand)[i]?
        = some (colRes password saltRand rows rand (i, (schema[i], cols[i]))) :=
    fun i hi hic => writeItems_getElem? schema cols rows password saltRand rand i hi hic
  have hlook : lookupBlocks
        (dirEntries C.length rows (writeItems schema cols rows password saltRand rand)) schema
      = .ok (schema.zip
          (dirEntries C.length rows (writeItems schema cols rows password saltRand rand))) := by
    refine lookupBlocks_zip _ _ _ hdlen ?_
    intro i f b hf hb
    have hi : i < schema.length := by
      by_contra hge
      rw [List.getElem?_eq_none (by omega)] at hf
      cases hf
    have hfi : f = schema[i] := by
      rw [List.getElem?_eq_getElem hi] at hf
      exact (Option.some_inj.mp hf).symm
    have hic : i < cols.length := by omega
    obtain ⟨off, hoffge, hdir⟩ := dirEntries_getElem? C.length rows _ i _ (hitem i hi hic)
    have hbb : b = ⟨(colRes password saltRand rows rand
          (i, (schema[i], cols[i]))).field.name, off,
        (colRes password saltRand rows rand
          (i, (schema[i], cols[i]))).data.length, rows, false,
        (colRes password saltRand rows rand
          (i, (schema[i], cols[i]))).checksum⟩ :=
      Option.some_inj.mp (hb.symm.trans hdir)
    have hbname : b.columnName = f.name := by
      rw [hbb, hfi]
      rfl
    have hfound := findBlock_nodup _ i b hb (by rw [hnames]; exact hnodup)
    rwa [hbname] at hfound
  have hres : (schema.zip
        (dirEntries C.length rows (writeItems schema cols rows password saltRand rand))).map
        (fun p => readColumn (lbf.NewReader password) p.1 p.2)
      = cols.map Except.ok := by
    have hlen1 : ((schema.zip (dirEntries C.length rows
          (writeItems schema cols rows password saltRand rand))).map
          (fun p => readColumn (lbf.NewReader password) p.1 p.2)).length = schema.length := by
      rw [List.length_map, List.length_zip, hdlen, min_self]
    have hlen2 : (cols.map (Except.ok : Column → Except LbError Column)).length
        = schema.length := by
      rw [List.length_map, hcols]
    refine List.ext_getElem (by rw [hlen1, hlen2]) ?_
    intro i h1 h2
    rw [hlen1] at h1
    have hic : i < cols.length := by omega
    have hid : i < (dirEntries C.length rows
        (writeItems schema cols rows password saltRand rand)).length := by
      rw [hdlen]; exact h1
    have hiz : i < (schema.zip (dirEntries C.length rows
        (writeItems schema cols rows password saltRand rand))).length := by
      rw [List.length_zip, hdlen, min_self]; exact h1
    rw [List.getElem_map, List.getElem_map, List.getElem_zip]
    show readColumn (lbf.NewReader password) schema[i]
      ((dirEntries C.length rows (writeItems schema cols rows password saltRand rand))[i])
      = Except.ok cols[i]
    have hit := hitem i h1 hic
    have hdi : (dirEntries C.length rows
        (writeItems schema cols rows password saltRand rand))[i]?
        = some ((dirEntries C.length rows
            (writeItems schema cols rows password saltRand rand))[i]) :=
      List.getElem?_eq_getElem hid
    obtain ⟨off, hoffge, hdir⟩ := dirEntries_getElem? C.length rows _ i _ hit
    have hbb : (dirEntries C.length rows
          (writeItems schema cols rows password saltRand rand))[i]
        = ⟨(colRes password saltRand rows rand
            (i, (schema[i], cols[i]))).field.name, off,
          (colRes password saltRand rows rand
            (i, (schema[i], cols[i]))).data.length, rows, false,
          (colRes password saltRand rows rand
            (i, (schema[i], cols[i]))).checksum⟩ :=
      Option.some_inj.mp (hdi.symm.trans hdir)
    have hcsum : ((dirEntries C.length rows
          (writeItems schema cols rows password saltRand rand))[i]).checksum
        = sha256 ((colRes password saltRand rows rand (i, (schema[i], cols[i]))).data) := by
      rw [hbb]
      rfl
    have h28off : 28 ≤ ((dirEntries C.length rows
        (writeItems schema cols rows password saltRand rand))[i]).offset := by
      have : ((dirEntries C.length rows
          (writeItems schema cols rows password saltRand rand))[i]).offset = off := by
        rw [hbb]
      omega
    have hreadCJ : readAt
        (C ++ ((writeItems schema cols rows password saltRand rand).map ColResult.data).flatten)
        ((dirEntries C.length rows (writeItems schema cols rows password saltRand rand))[i]).offset
        ((dirEntries C.length rows (writeItems schema cols rows password saltRand rand))[i]).length
        = some ((colRes password saltRand rows rand (i, (schema[i], cols[i]))).data) :=
      dirEntries_readAt C rows _ i _ _ hit hdi
    have hbound := readAt_bound hreadCJ
    have h28len : 28 ≤ (C ++ ((writeItems schema cols rows password saltRand rand).map
        ColResult.data).flatten).length := by
      rw [List.length_append]; omega
    have hrd : readAt lbf.fileBytes
        ((dirEntries C.length rows (writeItems schema cols rows password saltRand rand))[i]).offset
        ((dirEntries C.length rows (writeItems schema cols rows password saltRand rand))[i]).length
        = some ((colRes password saltRand rows rand (i, (schema[i], cols[i]))).data) := by
      rw [hbytes, readAt_updateBytes _ T W _ _ hWl h28len hbound (Or.inr h28off)]
      exact hreadCJ
    have henc2 : (lbf.NewReader password).encryptors ((schema[i] : ArrowField).name)
        = some (readerEnc password saltRand ((schema[i] : ArrowField).name)) := by
      rw [hre, hsalt, hschema]
      exact mkEncryptors_eq password schema saltRand _
        (List.mem_map_of_mem ArrowField.name (List.getElem_mem h1))
    have hdec : (readerEnc password saltRand ((schema[i] : ArrowField).name)).Decrypt
          ((colRes password saltRand rows rand (i, (schema[i], cols[i]))).data)
        = some (ipcEncode1 schema[i] cols[i] rows) :=
      decrypt_encrypt _ (writerScalar password saltRand) ((rand i).1) ((rand i).2)
        (ipcEncode1 schema[i] cols[i] rows) rfl (hnonce i) _
        (encrypt_eq_parts _ (writerScalar password saltRand) ((rand i).1) ((rand i).2)
          (ipcEncode1 schema[i] cols[i] rows) rfl)
    exact readColumn_ok (lbf.NewReader password) schema[i] _ _ _ _ cols[i] rows
      hrd hcsum henc2 hdec (ipcDecode1_ipcEncode1 _ _ _)
  have hnum : (cols.headD []).length = rows := by
    cases cols with
    | nil => exact absurd rfl hne
    | cons c cs => exact hrows c (List.mem_cons_self c cs)
  exact readPipeline_ok (lbf.NewReader password) _ schema cols rows
    (by rw [hrf, hschema, hblocks]; exact hlook)
    (by rw [hrf, hschema]) hres hnum

/-- C1: round-trip.  For every schema `S` with pairwise-distinct column
names and every batch `B` conforming to `S` (one column per field, all
columns of the batch's row count), creating a file with `S` and password
`pw`, writing `B` with `pw` (the drawn nonces being 12 bytes, as
`crypto/rand` delivers), and then reading all columns back with `pw`
returns a batch equal to `B` value-for-value, column by column:
`read(write(create(S,pw),B,pw),pw) = B`. -/
theorem roundtrip_create_write_read (schema : Schema) (cols : List Column) (rows : Nat)
    (password : String) (saltRand : List Nat) (scalarRand : GroupScalar)
    (rand : Nat → GroupScalar × List Nat)
    (hnodup : (schema.map ArrowField.name).Nodup)
    (hcols : cols.length = schema.length)
    (hne : cols ≠ [])
    (hrows : ∀ c ∈ cols, c.length = rows)
    (hnonce : ∀ i, ((rand i).2).length = NonceSize) :
    ∃ lbf0 w, FormatCreate schema password saltRand scalarRand = .ok lbf0 ∧
      lbf0.NewWriter password = .ok w ∧
      (w.WriteRecord ⟨schema, cols, rows⟩ rand).2 = none ∧
      ((w.WriteRecord ⟨schema, cols, rows⟩ rand).1.NewReader password).ReadRecord
        = .ok ⟨schema, cols, rows⟩ := by
  refine ⟨createdFile schema saltRand, createdWriter schema password saltRand,
    rfl, rfl, ?_, ?_⟩
  · rw [writeRecord_created]
  · rw [writeRecord_created]
    show ((writtenFile schema cols rows password saltRand rand).NewReader password).ReadRecord
      = .ok ⟨schema, cols, rows⟩
    have hlb : (loggedFile schema cols rows password saltRand rand).fileBytes
        = (createdFile schema saltRand).fileBytes
          ++ ((writeItems schema cols rows password saltRand rand).map ColResult.data).flatten := by
      show (appendedFile schema cols rows password saltRand rand).fileBytes = _
      unfold appendedFile
      exact appendBlocks_fileBytes rows (createdFile schema saltRand) _
    refine readRecord_of_written _ schema cols rows password saltRand rand
      (createdFile schema saltRand).fileBytes
      (toLE 4 (loggedFile schema cols rows password saltRand rand).meta.Serialize.length
        ++ (loggedFile schema cols rows password saltRand rand).meta.Serialize)
      (toLE 8 (loggedFile schema cols rows password saltRand rand).fileBytes.length)
      ?_ ?_ ?_ ?_ (toLE_length 8 _) ?_ hnodup hcols hrows hne hnonce
    · show (appendedFile schema cols rows password saltRand rand).meta.schema = schema
      unfold appendedFile
      exact ((appendBlocks_meta rows (createdFile schema saltRand)
        (writeItems schema cols rows password saltRand rand)).1).trans rfl
    · show (appendedFile schema cols rows password saltRand rand).meta.masterSalt = saltRand
      unfold appendedFile
      exact ((appendBlocks_meta rows (createdFile schema saltRand)
        (writeItems schema cols rows password saltRand rand)).2.1).trans rfl
    · show (appendedFile schema cols rows password saltRand rand).meta.blockInfo = _
      unfold appendedFile
      rw [(appendBlocks_meta rows (createdFile schema saltRand)
        (writeItems schema cols rows password saltRand rand)).2.2.2]
      exact List.nil_append _
    · show writeAt ((loggedFile schema cols rows password saltRand rand).fileBytes
          ++ (toLE 4 (loggedFile schema cols rows password saltRand rand).meta.Serialize.length
            ++ (loggedFile schema cols rows password saltRand rand).meta.Serialize))
          20 (toLE 8 (loggedFile schema cols rows password saltRand rand).fileBytes.length) = _
      rw [hlb]
    · show 28 ≤ (writeAt (headerBytes 0 ++
          (toLE 4 (NewMetadata schema saltRand).Serialize.length
            ++ (NewMetadata schema saltRand).Serialize))
        20 (toLE 8 (headerBytes 0).length)).length
      rw [writeAt_length]
      · rw [List.length_append, headerBytes_length]
        omega
      · rw [List.length_append, headerBytes_length, toLE_length]
        omega

/-- C1 witness: the three-row demo batch round-trips through
create/write/read at the demo password, salt and randomness. -/
theorem roundtrip_create_write_read_witness :
    (demoSchema.map ArrowField.name).Nodup ∧
    demoCols.length = demoSchema.length ∧ demoCols ≠ [] ∧
    (∀ c ∈ demoCols, c.length = 3) ∧
    (∀ i, ((demoRand i).2).length = NonceSize) ∧
    (∃ lbf0 w, FormatCreate demoSchema demoPassword demoSalt 3 = .ok lbf0 ∧
      lbf0.NewWriter demoPassword = .ok w ∧
      (w.WriteRecord ⟨demoSchema, demoCols, 3⟩ demoRand).2 = none ∧
      ((w.WriteRecord ⟨demoSchema, demoCols, 3⟩ demoRand).1.NewReader demoPassword).ReadRecord
        = .ok ⟨demoSchema, demoCols, 3⟩) :=
  ⟨by decide, by decide, by decide, by decide, fun i => rfl,
    roundtrip_create_write_read demoSchema demoCols 3 demoPassword demoSalt 3 demoRand
      (by decide) (by decide) (by decide) (by decide) (fun i => rfl)⟩

/-! ## Wrong-password read (C10) -/

/-- Opening under a key whose tag does not authenticate the sealed
ciphertext fails the tag check. -/
theorem gcmOpen_wrong_tag (k2 k1 nonce pt : List Nat)
    (htag : gcmTag k2 nonce (pt.map (fun b => b + gcmKs k1 nonce))
      ≠ gcmTag k1 nonce (pt.map (fun b => b + gcmKs k1 nonce))) :
    gcmOpen k2 nonce (gcmSeal k1 nonce pt) = none := by
  have hct : (pt.map (fun b => b + gcmKs k1 nonce)).length = pt.length := by simp
  have hlen : (gcmSeal k1 nonce pt).length - 16 = pt.length := by
    rw [gcmSeal_length]; omega
  unfold gcmOpen
  rw [if_pos (by rw [gcmSeal_length]; omega), hlen]
  show (if gcmTag k2 nonce ((gcmSeal k1 nonce pt).take pt.length) =
      (gcmSeal k1 nonce pt).drop pt.length then _ else _) = _
  unfold gcmSeal
  rw [List.take_left' hct, List.drop_left' hct, if_neg htag]

/-- Decrypting an envelope that was sealed under working key `k1` with an
encryptor whose recomputed working key authenticates differently fails
(the GCM tag check rejects). -/
theorem decrypt_wrong_key (ce : ColumnEncryptor) (s e : GroupScalar)
    (k1 nonce pt : List Nat) (hs : ce.kyberSecretKey = some s)
    (hn : nonce.length = NonceSize)
    (htag : gcmTag (hybridKey ce.key (pointMul s (mulBase e))) nonce
        (pt.map (fun b => b + gcmKs k1 nonce))
      ≠ gcmTag k1 nonce (pt.map (fun b => b + gcmKs k1 nonce))) :
    ce.Decrypt (encodePoint (mulBase e) ++ nonce ++ gcmSeal k1 nonce pt) = none := by
  unfold ColumnEncryptor.Decrypt
  have hep : (encodePoint (mulBase e)).length = 32 := encodePoint_length _
  have hgl := gcmSeal_length k1 nonce pt
  have hlen : (encodePoint (mulBase e) ++ nonce ++ gcmSeal k1 nonce pt).length
      = 32 + NonceSize + (pt.length + 16) := by
    simp only [List.length_append, hep, hn, hgl]
  have hns : NonceSize = 12 := rfl
  rw [if_neg (by rw [hlen, hns]; omega)]
  have htake : (encodePoint (mulBase e) ++ nonce ++ gcmSeal k1 nonce pt).take 32
      = encodePoint (mulBase e) := by
    rw [List.take_append_of_le_length
      (show (32:Nat) ≤ (encodePoint (mulBase e) ++ nonce).length by
        simp only [List.length_append, hep]; omega)]
    rw [List.take_append_of_le_length (le_of_eq hep.symm),
      List.take_of_length_le (le_of_eq hep)]
  have hnon : ((encodePoint (mulBase e) ++ nonce ++
      gcmSeal k1 nonce pt).drop 32).take NonceSize = nonce := by
    rw [List.drop_append_of_le_length
      (show (32:Nat) ≤ (encodePoint (mulBase e) ++ nonce).length by
        simp only [List.length_append, hep]; omega)]
    rw [List.drop_append_of_le_length (le_of_eq hep.symm),
      List.drop_of_length_le (le_of_eq hep), List.nil_append]
    exact List.take_left' hn
  have hdata : (encodePoint (mulBase e) ++ nonce ++
      gcmSeal k1 nonce pt).drop (32 + NonceSize) = gcmSeal k1 nonce pt := by
    apply List.drop_left'
    simp only [List.length_append, hep, hn]
  rw [htake, hnon, hdata]
  simp only [decodePoint_encodePoint, hs]
  exact gcmOpen_wrong_tag _ _ _ _ htag

/-- One read-pipeline worker fails with the decrypt error when the
positional read and checksum pass but decryption rejects. -/
theorem readColumn_decrypt_failed (r : Format.Reader) (f : ArrowField) (bi : BlockInfo)
    (ce : ColumnEncryptor) (data : List Nat)
    (hread : readAt r.file.fileBytes bi.offset bi.length = some data)
    (hcs : bi.checksum = sha256 data)
    (henc : r.encryptors f.name = some ce)
    (hdec : ce.Decrypt data = none) :
    readColumn r f bi = .error (.decryptFailed f.name) := by
  unfold readColumn
  rw [hread]
  show (if sha256 data ≠ bi.checksum then Except.error (LbError.corruptedBlock f.name)
    else match r.encryptors f.name with
      | none => Except.error (LbError.noEncryptor f.name)
      | some encryptor =>
          match encryptor.Decrypt data with
          | none => Except.error (LbError.decryptFailed f.name)
          | some dec =>
              match ipcDecode1 dec with
              | none => Except.error (LbError.deserializeFailed f.name)
              | some (_, c, _) => Except.ok c) = Except.error (LbError.decryptFailed f.name)
  rw [hcs, if_neg (fun hh => hh rfl), henc]
  show (match ce.Decrypt data with
    | none => Except.error (LbError.decryptFailed f.name)
    | some dec =>
        match ipcDecode1 dec with
        | none => Except.error (LbError.deserializeFailed f.name)
        | some (_, c, _) => Except.ok c) = Except.error (LbError.decryptFailed f.name)
  rw [hdec]

/-- The tail of the read pipeline when a per-column read errs: the first
error in field order is returned. -/
theorem readPipeline_error (r : Format.Reader) (pairs : List (ArrowField × BlockInfo))
    (e : LbError)
    (hlook : lookupBlocks r.file.meta.blockInfo r.file.meta.schema = .ok pairs)
    (hfe : firstErr (pairs.map fun p => readColumn r p.1 p.2) = some e) :
    r.ReadRecord = .error e := by
  unfold Format.Reader.ReadRecord
  rw [hlook]
  show (match firstErr (pairs.map fun p => readColumn r p.1 p.2) with
    | some err => Except.error err
    | none => Except.ok (Rec.mk r.file.meta.schema
        (collectOk (pairs.map fun p => readColumn r p.1 p.2))
        (((collectOk (pairs.map fun p => readColumn r p.1 p.2)).headD []).length)))
    = Except.error e
  rw [hfe]

/-- A file state holding the first write's directory and bytes (written
under `password`), read under `wrongPw`: the pipeline reaches the first
column's decryption and fails there, provided the working key derived
from the wrong password authenticates differently (the AEAD
authentication contract, instantiated per input). -/
theorem readRecord_wrong_password (lbf : LockboxFile) (f0 : ArrowField)
    (schemaRest : List ArrowField) (c0 : Column) (colsRest : List Column)
    (rows : Nat) (password wrongPw : String) (saltRand : List Nat)
    (rand : Nat → GroupScalar × List Nat) (C T W : List Nat)
    (hschema : lbf.meta.schema = f0 :: schemaRest)
    (hsalt : lbf.meta.masterSalt = saltRand)
    (hblocks : lbf.meta.blockInfo = dirEntries C.length rows
      (writeItems (f0 :: schemaRest) (c0 :: colsRest) rows password saltRand rand))
    (hbytes : lbf.fileBytes = writeAt
      ((C ++ ((writeItems (f0 :: schemaRest) (c0 :: colsRest) rows password saltRand
        rand).map ColResult.data).flatten) ++ T) 20 W)
    (hWl : W.length = 8)
    (hC : 28 ≤ C.length)
    (hnodup : ((f0 :: schemaRest).map ArrowField.name).Nodup)
    (hcols : (c0 :: colsRest).length = (f0 :: schemaRest).length)
    (hnonce : ∀ i, ((rand i).2).length = NonceSize)
    (htag : gcmTag
        (hybridKey (colKey wrongPw saltRand f0.name)
          (pointMul (writerScalar wrongPw saltRand) (mulBase (rand 0).1)))
        ((rand 0).2)
        ((ipcEncode1 f0 c0 rows).map (fun b => b +
          gcmKs (hybridKey (colKey password saltRand f0.name)
            (pointMul (writerScalar password saltRand) (mulBase (rand 0).1)))
            ((rand 0).2)))
      ≠ gcmTag
        (hybridKey (colKey password saltRand f0.name)
          (pointMul (writerScalar password saltRand) (mulBase (rand 0).1)))
        ((rand 0).2)
        ((ipcEncode1 f0 c0 rows).map (fun b => b +
          gcmKs (hybridKey (colKey password saltRand f0.name)
            (pointMul (writerScalar password saltRand) (mulBase (rand 0).1)))
            ((rand 0).2)))) :
    (lbf.NewReader wrongPw).ReadRecord = .error (.decryptFailed f0.name) := by
  have hrf : (lbf.NewReader wrongPw).file = lbf := rfl
  have hre : (lbf.NewReader wrongPw).encryptors
      = mkEncryptors (DeriveKey wrongPw lbf.meta.masterSalt) lbf.meta.schema
          lbf.meta.masterSalt := rfl
  have hilen : (writeItems (f0 :: schemaRest) (c0 :: colsRest) rows password saltRand
      rand).length = (f0 :: schemaRest).length := by
    rw [writeItems_length, List.length_zip, hcols, min_self]
  have hdlen : (dirEntries C.length rows (writeItems (f0 :: schemaRest) (c0 :: colsRest)
      rows password saltRand rand)).length = (f0 :: schemaRest).length := by
    rw [dirEntries_length, hilen]
  have hnames : (dirEntries C.length rows (writeItems (f0 :: schemaRest) (c0 :: colsRest)
        rows password saltRand rand)).map BlockInfo.columnName
      = (f0 :: schemaRest).map ArrowField.name := by
    rw [dirEntries_names,
      writeItems_names (f0 :: schemaRest) (c0 :: colsRest) rows password saltRand rand hcols]
  have hitem : ∀ (i : Nat) (hi : i < (f0 :: schemaRest).length)
      (hic : i < (c0 :: colsRest).length),
      (writeItems (f0 :: schemaRest) (c0 :: colsRest) rows password saltRand rand)[i]?
        = some (colRes password saltRand rows rand
            (i, ((f0 :: schemaRest)[i], (c0 :: colsRest)[i]))) :=
    fun i hi hic =>
      writeItems_getElem? (f0 :: schemaRest) (c0 :: colsRest) rows password saltRand rand i hi hic
  have hlook : lookupBlocks
        (dirEntries C.length rows (writeItems (f0 :: schemaRest) (c0 :: colsRest) rows
          password saltRand rand)) (f0 :: schemaRest)
      = .ok ((f0 :: schemaRest).zip
          (dirEntries C.length rows (writeItems (f0 :: schemaRest) (c0 :: colsRest) rows
            password saltRand rand))) := by
    refine lookupBlocks_zip _ _ _ hdlen ?_
    intro i f b hf hb
    have hi : i < (f0 :: schemaRest).length := by
      by_contra hge
      rw [List.getElem?_eq_none (by omega)] at hf
      cases hf
    have hfi : f = (f0 :: schemaRest)[i] := by
      rw [List.getElem?_eq_getElem hi] at hf
      exact (Option.some_inj.mp hf).symm
    have hic : i < (c0 :: colsRest).length := by
      rw [hcols] at *
      omega
    obtain ⟨off, hoffge, hdir⟩ := dirEntries_getElem? C.length rows _ i _ (hitem i hi hic)
    have hbb : b = ⟨(colRes password saltRand rows rand
          (i, ((f0 :: schemaRest)[i], (c0 :: colsRest)[i]))).field.name, off,
        (colRes password saltRand rows rand
          (i, ((f0 :: schemaRest)[i], (c0 :: colsRest)[i]))).data.length, rows, false,
        (colRes password saltRand rows rand
          (i, ((f0 :: schemaRest)[i], (c0 :: colsRest)[i]))).checksum⟩ :=
      Option.some_inj.mp (hb.symm.trans hdir)
    have hbname : b.columnName = f.name := by
      rw [hbb, hfi]
      rfl
    have hfound := findBlock_nodup _ i b hb (by rw [hnames]; exact hnodup)
    rwa [hbname] at hfound
  have h0s : (0 : Nat) < (f0 :: schemaRest).length := by simp
  have h0c : (0 : Nat) < (c0 :: colsRest).length := by simp
  have hid : (0 : Nat) < (dirEntries C.length rows (writeItems (f0 :: schemaRest)
      (c0 :: colsRest) rows password saltRand rand)).length := by
    rw [hdlen]; simp
  have hit := hitem 0 h0s h0c
  have hdi : (dirEntries C.length rows (writeItems (f0 :: schemaRest) (c0 :: colsRest)
        rows password saltRand rand))[0]?
      = some ((dirEntries C.length rows (writeItems (f0 :: schemaRest) (c0 :: colsRest)
          rows password saltRand rand))[0]) :=
    List.getElem?_eq_getElem hid
  obtain ⟨off, hoffge, hdir⟩ := dirEntries_getElem? C.length rows _ 0 _ hit
  have hbb : (dirEntries C.length rows (writeItems (f0 :: schemaRest) (c0 :: colsRest)
        rows password saltRand rand))[0]
      = ⟨(colRes password saltRand rows rand
          (0, ((f0 :: schemaRest)[0], (c0 :: colsRest)[0]))).field.name, off,
        (colRes password saltRand rows rand
          (0, ((f0 :: schemaRest)[0], (c0 :: colsRest)[0]))).data.length, rows, false,
        (colRes password saltRand rows rand
          (0, ((f0 :: schemaRest)[0], (c0 :: colsRest)[0]))).checksum⟩ :=
    Option.some_inj.mp (hdi.symm.trans hdir)
  have hcsum : ((dirEntries C.length rows (writeItems (f0 :: schemaRest) (c0 :: colsRest)
        rows password saltRand rand))[0]).checksum
      = sha256 ((colRes password saltRand rows rand
          (0, ((f0 :: schemaRest)[0], (c0 :: colsRest)[0]))).data) := by
    rw [hbb]
    rfl
  have h28off : 28 ≤ ((dirEntries C.length rows (writeItems (f0 :: schemaRest)
      (c0 :: colsRest) rows password saltRand rand))[0]).offset := by
    have : ((dirEntries C.length rows (writeItems (f0 :: schemaRest) (c0 :: colsRest)
        rows password saltRand rand))[0]).offset = off := by
      rw [hbb]
    omega
  have hreadCJ : readAt
      (C ++ ((writeItems (f0 :: schemaRest) (c0 :: colsRest) rows password saltRand
        rand).map ColResult.data).flatten)
      ((dirEntries C.length rows (writeItems (f0 :: schemaRest) (c0 :: colsRest) rows
        password saltRand rand))[0]).offset
      ((dirEntries C.length rows (writeItems (f0 :: schemaRest) (c0 :: colsRest) rows
        password saltRand rand))[0]).length
      = some ((colRes password saltRand rows rand
          (0, ((f0 :: schemaRest)[0], (c0 :: colsRest)[0]))).data) :=
    dirEntries_readAt C rows _ 0 _ _ hit hdi
  have hbound := readAt_bound hreadCJ
  have h28len : 28 ≤ (C ++ ((writeItems (f0 :: schemaRest) (c0 :: colsRest) rows password
      saltRand rand).map ColResult.data).flatten).length := by
    rw [List.length_append]; omega
  have hrd : readAt lbf.fileBytes
      ((dirEntries C.length rows (writeItems (f0 :: schemaRest) (c0 :: colsRest) rows
        password saltRand rand))[0]).offset
      ((dirEntries C.length rows (writeItems (f0 :: schemaRest) (c0 :: colsRest) rows
        password saltRand rand))[0]).length
      = some ((colRes password saltRand rows rand
          (0, ((f0 :: schemaRest)[0], (c0 :: colsRest)[0]))).data) := by
    rw [hbytes, readAt_updateBytes _ T W _ _ hWl h28len hbound (Or.inr h28off)]
    exact hreadCJ
  have henc2 : (lbf.NewReader wrongPw).encryptors (f0.name)
      = some (readerEnc wrongPw saltRand f0.name) := by
    rw [hre, hsalt, hschema]
    exact mkEncryptors_eq wrongPw (f0 :: schemaRest) saltRand f0.name
      (List.mem_map_of_mem ArrowField.name (List.mem_cons_self f0 schemaRest))
  have hdec : (readerEnc wrongPw saltRand f0.name).Decrypt
      ((colRes password saltRand rows rand
        (0, ((f0 :: schemaRest)[0], (c0 :: colsRest)[0]))).data) = none :=
    decrypt_wrong_key (readerEnc wrongPw saltRand f0.name)
      (writerScalar wrongPw saltRand) ((rand 0).1)
      (hybridKey (colKey password saltRand f0.name)
        (pointMul (writerScalar password saltRand) (mulBase (rand 0).1)))
      ((rand 0).2) (ipcEncode1 f0 c0 rows) rfl (hnonce 0) htag
  have h0 : readColumn (lbf.NewReader wrongPw) f0
      ((dirEntries C.length rows (writeItems (f0 :: schemaRest) (c0 :: colsRest) rows
        password saltRand rand))[0])
      = .error (.decryptFailed f0.name) :=
    readColumn_decrypt_failed (lbf.NewReader wrongPw) f0 _
      (readerEnc wrongPw saltRand f0.name) _ hrd hcsum henc2 hdec
  have hfe : firstErr (((f0 :: schemaRest).zip
        (dirEntries C.length rows (writeItems (f0 :: schemaRest) (c0 :: colsRest) rows
          password saltRand rand))).map
        (fun p => readColumn (lbf.NewReader wrongPw) p.1 p.2))
      = some (.decryptFailed f0.name) := by
    refine firstErr_of_getElem _ 0 _ ?_ (fun j hj => absurd hj (Nat.not_lt_zero j))
    have hiz : (0 : Nat) < ((f0 :: schemaRest).zip
        (dirEntries C.length rows (writeItems (f0 :: schemaRest) (c0 :: colsRest) rows
          password saltRand rand))).length := by
      rw [List.length_zip, hdlen, min_self]; simp
    rw [List.getElem?_eq_getElem (by rw [List.length_map]; exact hiz),
      List.getElem_map, List.getElem_zip]
    exact congrArg some h0
  exact readPipeline_error (lbf.NewReader wrongPw) _ _
    (by rw [hrf, hschema, hblocks]; exact hlook) hfe

/-- C10: `Open` does not depend on the password: its result on any file
bytes is identical for any two passwords, it succeeds exactly when the
header and metadata parse (the well-formedness check), and the
key-derivation step can never fail (`DeriveKey` always returns a non-nil
key), so the `invalid password` branch of `Open` is unreachable.  A wrong
password surfaces only later, at read time: reading a file that was
written under `password` with a reader opened under `wrongPw` fails at
the GCM decryption step with the decrypt error of the first column
(given that the working key recomputed from the wrong password
authenticates differently — the AEAD authentication contract,
instantiated at this input). -/
theorem open_password_independent (bytes : List Nat) (pw1 pw2 : String)
    (f0 : ArrowField) (schemaRest : List ArrowField) (c0 : Column)
    (colsRest : List Column) (rows : Nat) (password wrongPw : String)
    (saltRand : List Nat) (scalarRand : GroupScalar)
    (rand : Nat → GroupScalar × List Nat)
    (hnodup : ((f0 :: schemaRest).map ArrowField.name).Nodup)
    (hcols : (c0 :: colsRest).length = (f0 :: schemaRest).length)
    (hnonce : ∀ i, ((rand i).2).length = NonceSize)
    (htag : gcmTag
        (hybridKey (colKey wrongPw saltRand f0.name)
          (pointMul (writerScalar wrongPw saltRand) (mulBase (rand 0).1)))
        ((rand 0).2)
        ((ipcEncode1 f0 c0 rows).map (fun b => b +
          gcmKs (hybridKey (colKey password saltRand f0.name)
            (pointMul (writerScalar password saltRand) (mulBase (rand 0).1)))
            ((rand 0).2)))
      ≠ gcmTag
        (hybridKey (colKey password saltRand f0.name)
          (pointMul (writerScalar password saltRand) (mulBase (rand 0).1)))
        ((rand 0).2)
        ((ipcEncode1 f0 c0 rows).map (fun b => b +
          gcmKs (hybridKey (colKey password saltRand f0.name)
            (pointMul (writerScalar password saltRand) (mulBase (rand 0).1)))
            ((rand 0).2)))) :
    FormatOpen bytes pw1 = FormatOpen bytes pw2 ∧
    ((FormatOpen bytes pw1).isOk = (readHeaderBytes bytes).isOk) ∧
    (∀ pw salt, (DeriveKeyOpt pw salt).isSome = true) ∧
    (∃ lbf0 w lbf1,
      FormatCreate (f0 :: schemaRest) password saltRand scalarRand = .ok lbf0 ∧
      lbf0.NewWriter password = .ok w ∧
      w.WriteRecord ⟨f0 :: schemaRest, c0 :: colsRest, rows⟩ rand = (lbf1, none) ∧
      (lbf1.NewReader wrongPw).ReadRecord = .error (.decryptFailed f0.name)) := by
  refine ⟨?_, ?_, fun pw salt => rfl, ?_⟩
  · unfold FormatOpen
    cases readHeaderBytes bytes <;> rfl
  · unfold FormatOpen
    cases readHeaderBytes bytes <;> simp [Except.isOk, Except.toBool, DeriveKeyOpt]
  refine ⟨createdFile (f0 :: schemaRest) saltRand,
    createdWriter (f0 :: schemaRest) password saltRand,
    writtenFile (f0 :: schemaRest) (c0 :: colsRest) rows password saltRand rand,
    rfl, rfl,
    writeRecord_created (f0 :: schemaRest) (c0 :: colsRest) rows password saltRand rand, ?_⟩
  have hlb : (loggedFile (f0 :: schemaRest) (c0 :: colsRest) rows password saltRand
        rand).fileBytes
      = (createdFile (f0 :: schemaRest) saltRand).fileBytes
        ++ ((writeItems (f0 :: schemaRest) (c0 :: colsRest) rows password saltRand
          rand).map ColResult.data).flatten := by
    show (appendedFile (f0 :: schemaRest) (c0 :: colsRest) rows password saltRand
      rand).fileBytes = _
    unfold appendedFile
    exact appendBlocks_fileBytes rows (createdFile (f0 :: schemaRest) saltRand) _
  refine readRecord_wrong_password _ f0 schemaRest c0 colsRest rows password wrongPw
    saltRand rand (createdFile (f0 :: schemaRest) saltRand).fileBytes
    (toLE 4 (loggedFile (f0 :: schemaRest) (c0 :: colsRest) rows password saltRand
        rand).meta.Serialize.length
      ++ (loggedFile (f0 :: schemaRest) (c0 :: colsRest) rows password saltRand
        rand).meta.Serialize)
    (toLE 8 (loggedFile (f0 :: schemaRest) (c0 :: colsRest) rows password saltRand
        rand).fileBytes.length)
    ?_ ?_ ?_ ?_ (toLE_length 8 _) ?_ hnodup hcols hnonce htag
  · show (appendedFile (f0 :: schemaRest) (c0 :: colsRest) rows password saltRand
      rand).meta.schema = f0 :: schemaRest
    unfold appendedFile
    exact ((appendBlocks_meta rows (createdFile (f0 :: schemaRest) saltRand)
      (writeItems (f0 :: schemaRest) (c0 :: colsRest) rows password saltRand rand)).1).trans rfl
  · show (appendedFile (f0 :: schemaRest) (c0 :: colsRest) rows password saltRand
      rand).meta.masterSalt = saltRand
    unfold appendedFile
    exact ((appendBlocks_meta rows (createdFile (f0 :: schemaRest) saltRand)
      (writeItems (f0 :: schemaRest) (c0 :: colsRest) rows password saltRand
        rand)).2.1).trans rfl
  · show (appendedFile (f0 :: schemaRest) (c0 :: colsRest) rows password saltRand
      rand).meta.blockInfo = _
    unfold appendedFile
    rw [(appendBlocks_meta rows (createdFile (f0 :: schemaRest) saltRand)
      (writeItems (f0 :: schemaRest) (c0 :: colsRest) rows password saltRand rand)).2.2.2]
    exact List.nil_append _
  · show writeAt ((loggedFile (f0 :: schemaRest) (c0 :: colsRest) rows password saltRand
          rand).fileBytes
        ++ (toLE 4 (loggedFile (f0 :: schemaRest) (c0 :: colsRest) rows password saltRand
            rand).meta.Serialize.length
          ++ (loggedFile (f0 :: schemaRest) (c0 :: colsRest) rows password saltRand
            rand).meta.Serialize))
        20 (toLE 8 (loggedFile (f0 :: schemaRest) (c0 :: colsRest) rows password saltRand
          rand).fileBytes.length) = _
    rw [hlb]
  · show 28 ≤ (writeAt (headerBytes 0 ++
        (toLE 4 (NewMetadata (f0 :: schemaRest) saltRand).Serialize.length
          ++ (NewMetadata (f0 :: schemaRest) saltRand).Serialize))
      20 (toLE 8 (headerBytes 0).length)).length
    rw [writeAt_length]
    · rw [List.length_append, headerBytes_length]
      omega
    · rw [List.length_append, headerBytes_length, toLE_length]
      omega

set_option maxRecDepth 40000 in
/-- Witness for C10: `Open` on the demo file's bytes is the same under
the right and a wrong password, and reading the written demo file under
the wrong password fails at the first column's decryption. -/
theorem open_password_independent_witness :
    FormatOpen demoFile.fileBytes demoPassword
      = FormatOpen demoFile.fileBytes "wrong_password" ∧
    ((FormatOpen demoFile.fileBytes demoPassword).isOk
      = (readHeaderBytes demoFile.fileBytes).isOk) ∧
    (∀ pw salt, (DeriveKeyOpt pw salt).isSome = true) ∧
    (∃ lbf0 w lbf1,
      FormatCreate demoSchema demoPassword demoSalt 3 = .ok lbf0 ∧
      lbf0.NewWriter demoPassword = .ok w ∧
      w.WriteRecord ⟨demoSchema, demoCols, 3⟩ demoRand = (lbf1, none) ∧
      (lbf1.NewReader "wrong_password").ReadRecord = .error (.decryptFailed "id")) :=
  open_password_independent demoFile.fileBytes demoPassword "wrong_password"
    ⟨"id", .int64, false⟩ [⟨"name", .utf8, true⟩, ⟨"score", .float64, true⟩]
    [.vInt 1, .vInt 2, .vInt 3]
    [[.vStr "alice", .vStr "bob", .vStr "carol"], [.vFloat 10, .vFloat 55, .vFloat 30]]
    3 demoPassword "wrong_password" demoSalt 3 demoRand
    (by decide) (by decide) (fun i => rfl) (by decide)
